import Mathlib

/-!
Verification of the `chehov` inverted-index storage engine.

This file is a shallow embedding, in Lean 4, of the core of the engine:

* the Entry codec (`src/crates/index/src/segment/memory.rs`, `Entry`);
* cached (in-memory) segments (`CachedSegment::new`, `CachedSegment::find`);
* the on-disk segment writer and reader
  (`src/crates/index/src/segment/disk.rs`), at the level of byte lists;
* the tiered segment map (`src/crates/index/src/segment/mod.rs`);
* the partition map's `search` (`src/crates/index/src/partition.rs`).

Modelling conventions:

* Rust `u32`/`u64`/`usize` values are modelled as `Nat`; where the source
  can wrap (release-mode `u32` subtraction in the disk binary searches) the
  model wraps explicitly modulo `2 ^ 32`.
* `FxHashMap<K, Vec<B>>` is modelled as an association list
  `List (String × List String)` whose order stands for the map's (arbitrary)
  iteration order; theorems quantify over that order.  `FxHashSet`
  deduplication is modelled with `List.dedup`; since the deduplicated values
  are subsequently sorted by a total order on distinct strings, the
  iteration order of the set does not affect the constructed segment.
* the `snappy` compression library is an external crate; it is modelled by
  an abstract `SnappyImpl` record (a compressor and a fallible
  decompressor).  `uncompress` models the composition of
  `snappy::uncompress` with the subsequent UTF-8 validation
  (`String::try_from`), both of which the source unwraps.  Theorems that
  need the library contract take the round-trip equation as an explicit
  hypothesis on the strings actually touched.
* Rust panics (`unwrap`, `ilog2` on zero, out-of-bounds indexing) are
  modelled by `Option`/default values as noted at each definition.
* strings are compared in the source as UTF-8 byte sequences
  (`str::cmp`); the model compares the lists of character code points,
  which induces the same total order (UTF-8 preserves code-point order)
  and the same equality.
-/

/-! ### Byte-level string utilities -/

/-- UTF-8 encoding of a single character, from its code point
(the standard 1–4 byte encoding used by Rust's `str::as_bytes`). -/
def utf8Bytes (c : Char) : List Nat :=
  let n := c.toNat
  if n < 0x80 then [n]
  else if n < 0x800 then [0xC0 + n / 64, 0x80 + n % 64]
  else if n < 0x10000 then
    [0xE0 + n / 4096, 0x80 + n / 64 % 64, 0x80 + n % 64]
  else
    [0xF0 + n / 262144, 0x80 + n / 4096 % 64, 0x80 + n / 64 % 64, 0x80 + n % 64]

/-- The UTF-8 bytes of a string (Rust `str::as_bytes`). -/
def strBytes (s : String) : List Nat :=
  (s.data.map utf8Bytes).flatten

/-- Rust `str::len`: the length of a string in UTF-8 bytes. -/
def strLen (s : String) : Nat :=
  (strBytes s).length

/-- One step of UTF-8 decoding: decode the first scalar value from a byte
list, returning the character and the rest.  Continuation bytes are
validated; rejects proper prefixes that run off the end. -/
def utf8DecodeChar : List Nat → Option (Char × List Nat)
  | [] => none
  | b :: rest =>
    if b < 0x80 then
      some (Char.ofNat b, rest)
    else if b < 0xC0 then none
    else if b < 0xE0 then
      match rest with
      | b1 :: rest1 =>
        if 0x80 ≤ b1 ∧ b1 < 0xC0 then
          let n := (b - 0xC0) * 64 + (b1 - 0x80)
          if n < 0xD800 then some (Char.ofNat n, rest1) else none
        else none
      | _ => none
    else if b < 0xF0 then
      match rest with
      | b1 :: b2 :: rest2 =>
        if 0x80 ≤ b1 ∧ b1 < 0xC0 ∧ 0x80 ≤ b2 ∧ b2 < 0xC0 then
          let n := (b - 0xE0) * 4096 + (b1 - 0x80) * 64 + (b2 - 0x80)
          if n < 0xD800 ∨ (0xDFFF < n ∧ n < 0x110000) then
            some (Char.ofNat n, rest2)
          else none
        else none
      | _ => none
    else if b < 0xF8 then
      match rest with
      | b1 :: b2 :: b3 :: rest3 =>
        if 0x80 ≤ b1 ∧ b1 < 0xC0 ∧ 0x80 ≤ b2 ∧ b2 < 0xC0 ∧ 0x80 ≤ b3 ∧ b3 < 0xC0 then
          let n := (b - 0xF0) * 262144 + (b1 - 0x80) * 4096 + (b2 - 0x80) * 64 + (b3 - 0x80)
          if 0x10000 ≤ n ∧ n < 0x110000 then
            some (Char.ofNat n, rest3)
          else none
        else none
      | _ => none
    else none

/-- Fuelled UTF-8 decoding of a whole byte list into characters. -/
def utf8DecodeAux : Nat → List Nat → Option (List Char)
  | 0, l => if l.isEmpty then some [] else none
  | fuel + 1, l =>
    if l.isEmpty then some []
    else
      match utf8DecodeChar l with
      | none => none
      | some (c, rest) => (utf8DecodeAux fuel rest).map (c :: ·)

/-- UTF-8 validation and decoding of a byte list into a string
(Rust `String::try_from(Vec<u8>)`); `none` models the `Utf8Error` case. -/
def strOfBytes (l : List Nat) : Option String :=
  (utf8DecodeAux l.length l).map List.asString

/-! ### The total order on strings used by the source

The source orders entries with `str::cmp`, lexicographic on UTF-8 bytes.
Code-point order on the character lists induces exactly the same order and
the same equality, and is what the model uses. -/

/-- Lexicographic three-way comparison of lists of naturals
(mirrors Rust's `Ord` on byte slices). -/
def cmpN : List Nat → List Nat → Ordering
  | [], [] => .eq
  | [], _ :: _ => .lt
  | _ :: _, [] => .gt
  | a :: as_, b :: bs =>
    if a < b then .lt else if b < a then .gt else cmpN as_ bs

/-- The code points of a string's characters. -/
def strPoints (s : String) : List Nat :=
  s.data.map Char.toNat

/-- Three-way string comparison as performed by the source's
`as_uncompressed().cmp(..)` calls (Rust `str::cmp`). -/
def cmpStr (s t : String) : Ordering :=
  cmpN (strPoints s) (strPoints t)

theorem cmpN_refl : ∀ l : List Nat, cmpN l l = .eq := by
  intro l
  induction l with
  | nil => rfl
  | cons a as_ ih => simp [cmpN, ih]

theorem cmpN_eq_iff : ∀ {l m : List Nat}, cmpN l m = .eq ↔ l = m := by
  intro l
  induction l with
  | nil => intro m; cases m <;> simp [cmpN]
  | cons a as_ ih =>
    intro m
    cases m with
    | nil => simp [cmpN]
    | cons b bs =>
      by_cases hab : a < b
      · simp [cmpN, hab]
        omega
      · by_cases hba : b < a
        · simp [cmpN, hab, hba]
          omega
        · have : a = b := by omega
          subst this
          simp [cmpN, hab, hba, ih]

theorem cmpN_swap : ∀ l m : List Nat, cmpN m l = (cmpN l m).swap := by
  intro l
  induction l with
  | nil => intro m; cases m <;> simp [cmpN, Ordering.swap]
  | cons a as_ ih =>
    intro m
    cases m with
    | nil => simp [cmpN, Ordering.swap]
    | cons b bs =>
      by_cases hab : a < b
      · have : ¬ b < a := by omega
        simp [cmpN, hab, this, Ordering.swap]
      · by_cases hba : b < a
        · simp [cmpN, hab, hba, Ordering.swap]
        · simp [cmpN, hab, hba, ih bs]

theorem cmpN_lt_trans : ∀ {l m n : List Nat},
    cmpN l m = .lt → cmpN m n = .lt → cmpN l n = .lt := by
  intro l
  induction l with
  | nil =>
    intro m n h1 h2
    cases n with
    | nil =>
      cases m with
      | nil => simp [cmpN] at h1
      | cons b bs => simp [cmpN] at h2
    | cons c cs => simp [cmpN]
  | cons a as_ ih =>
    intro m n h1 h2
    cases m with
    | nil => simp [cmpN] at h1
    | cons b bs =>
      cases n with
      | nil => simp [cmpN] at h2
      | cons c cs =>
        simp only [cmpN] at h1 h2 ⊢
        by_cases hab : a < b
        · by_cases hbc : b < c
          · have : a < c := by omega
            simp [this]
          · by_cases hcb : c < b
            · simp [hbc, hcb] at h2
            · have : b = c := by omega
              subst this
              simp [hab]
        · by_cases hba : b < a
          · simp [hab, hba] at h1
          · have : a = b := by omega
            subst this
            simp only [hab, if_neg (by omega : ¬ a < a)] at h1 ⊢
            by_cases hac : a < c
            · simp [hac]
            · by_cases hca : c < a
              · simp [hac, hca] at h2
              · simp only [if_neg hac, if_neg hca] at h2 ⊢
                exact ih h1 h2

theorem charToNat_injective : Function.Injective Char.toNat := by
  intro a b hab
  apply Char.ext
  exact UInt32.ext hab

theorem strPoints_inj {s t : String} (h : strPoints s = strPoints t) : s = t := by
  apply String.ext
  exact List.map_injective_iff.mpr charToNat_injective h

theorem cmpStr_eq_iff {s t : String} : cmpStr s t = .eq ↔ s = t := by
  constructor
  · intro h
    exact strPoints_inj (cmpN_eq_iff.mp h)
  · rintro rfl
    exact cmpN_refl _

theorem cmpStr_refl (s : String) : cmpStr s s = .eq := cmpN_refl _

theorem cmpStr_swap (s t : String) : cmpStr t s = (cmpStr s t).swap := cmpN_swap _ _

theorem cmpStr_lt_trans {s t u : String}
    (h1 : cmpStr s t = .lt) (h2 : cmpStr t u = .lt) : cmpStr s u = .lt :=
  cmpN_lt_trans h1 h2

/-- The non-strict order `s ≤ t` induced by `cmpStr`, as used for sorting. -/
def strLe (s t : String) : Prop := cmpStr s t ≠ .gt

instance : DecidableRel strLe := fun s t => by
  unfold strLe
  infer_instance

theorem strLe_total (s t : String) : strLe s t ∨ strLe t s := by
  unfold strLe
  rw [cmpStr_swap s t]
  cases cmpStr s t <;> simp [Ordering.swap]

theorem cmpStr_lt_of_not_le {s t : String} (h : ¬ strLe s t) : cmpStr t s = .lt := by
  unfold strLe at h
  rw [not_ne_iff] at h
  rw [cmpStr_swap s t, h]
  rfl

theorem strLe_trans {s t u : String} (h1 : strLe s t) (h2 : strLe t u) : strLe s u := by
  unfold strLe at h1 h2 ⊢
  cases hst : cmpStr s t with
  | lt =>
    cases htu : cmpStr t u with
    | lt => simp [cmpStr_lt_trans hst htu]
    | eq =>
      have := cmpStr_eq_iff.mp htu
      subst this
      simp [hst]
    | gt => exact absurd htu h2
  | eq =>
    have := cmpStr_eq_iff.mp hst
    subst this
    exact h2
  | gt => exact absurd hst h1

theorem strLt_asymm {s t : String} (h : cmpStr s t = .lt) : strLe s t := by
  unfold strLe
  simp [h]

/-! ### The Entry codec (`memory.rs`, `Entry`)

The `snappy` crate is external to the repository; it is abstracted as a
compressor together with a fallible decompressor.  `uncompress` models
`snappy::uncompress` composed with the UTF-8 validation `String::try_from`
performs on the decompressed bytes (the source unwraps both). -/

structure SnappyImpl where
  compress : String → List Nat
  uncompress : List Nat → Option String

/-- The snappy library contract at one string: decompressing the
compressed form gives the string back. -/
def RoundTrips (S : SnappyImpl) (s : String) : Prop :=
  S.uncompress (S.compress s) = some s

/-- `Entry` from `memory.rs`: a string held either Snappy-compressed or raw. -/
inductive Entry where
  | Compressed (buffer : List Nat)
  | Uncompressed (string : String)
deriving DecidableEq

/-- `Entry::new`: compress, and keep the compressed form iff it is strictly
smaller than the raw UTF-8 bytes (`compressed.len() < string.len()`). -/
def Entry.new (S : SnappyImpl) (string : String) : Entry :=
  let compressed := S.compress string
  if compressed.length < strLen string then
    .Compressed compressed
  else
    .Uncompressed string

/-- `Entry::as_uncompressed`.  On the compressed path the source unwraps
both the decompression and the UTF-8 validation; `none` models that panic. -/
def Entry.asUncompressed? (S : SnappyImpl) : Entry → Option String
  | .Compressed buffer => S.uncompress buffer
  | .Uncompressed buffer => some buffer

/-- `Entry::into_uncompressed` performs the same computation as
`as_uncompressed` (it merely consumes the entry instead of borrowing it). -/
def Entry.intoUncompressed? (S : SnappyImpl) (e : Entry) : Option String :=
  e.asUncompressed? S

/-- Total version of `as_uncompressed` as used inside comparators; the
`.getD ""` default stands for the unreachable panic of the unwraps. -/
def Entry.asUncompressed (S : SnappyImpl) (e : Entry) : String :=
  (e.asUncompressed? S).getD ""

instance (S : SnappyImpl) (s : String) : Decidable (RoundTrips S s) :=
  inferInstanceAs (Decidable (_ = _))

theorem asUncompressed_new (S : SnappyImpl) {s : String} (h : RoundTrips S s) :
    (Entry.new S s).asUncompressed S = s := by
  unfold RoundTrips at h
  unfold Entry.new Entry.asUncompressed Entry.asUncompressed?
  by_cases hc : (S.compress s).length < strLen s <;> simp [hc, h]

/-! ### A concrete executable compressor used to instantiate witnesses

A byte-level run-length scheme: runs of up to 255 equal bytes become
`(count, byte)` pairs.  It satisfies the `RoundTrips` contract on the
concrete strings where witnesses need it (discharged by `decide`). -/

/-- Prepend one byte onto a reversed run list. -/
def rlePush (b : Nat) : List (Nat × Nat) → List (Nat × Nat)
  | [] => [(1, b)]
  | (c, b0) :: rest =>
    if b0 = b ∧ c < 255 then (c + 1, b0) :: rest else (1, b) :: (c, b0) :: rest

/-- RLE compression of a string's UTF-8 bytes. -/
def rleCompress (s : String) : List Nat :=
  (((strBytes s).foldl (fun acc b => rlePush b acc) []).reverse).flatMap
    (fun p => [p.1, p.2])

/-- Expand an RLE byte stream back into raw bytes. -/
def rleExpand : List Nat → Option (List Nat)
  | [] => some []
  | [_] => none
  | c :: b :: rest =>
    if c = 0 ∨ 255 < c ∨ 255 < b then none
    else (rleExpand rest).map (List.replicate c b ++ ·)

/-- RLE decompression plus UTF-8 validation. -/
def rleUncompress (l : List Nat) : Option String :=
  (rleExpand l).bind strOfBytes

/-- The concrete `SnappyImpl` used for witnesses and counterexamples. -/
def rleSnappy : SnappyImpl :=
  { compress := rleCompress, uncompress := rleUncompress }

example : rleSnappy.compress "aaaaaaaaaa" = [10, 97] := by decide
example : RoundTrips rleSnappy "aaaaaaaaaa" := by decide
example : RoundTrips rleSnappy "k" := by decide
example : Entry.new rleSnappy "aaaaaaaaaa" = .Compressed [10, 97] := by decide
example : Entry.new rleSnappy "k" = .Uncompressed "k" := by decide

/-! ### Rust `slice::binary_search_by`

The source resolves keys and values through `binary_search_by`.  This is
the branchless standard-library implementation: the loop keeps a window
`[base, base + size)`, moves `base` to the midpoint unless the probe
compares greater than the target, and only compares for equality once at
the end.  `f e` is the source comparator `e.cmp(target)`. -/

/-- The `while size > 1` loop of `binary_search_by`; `g i` probes index
`i`.  The fuel is at least `size`, which bounds the iteration count. -/
def binarySearchGo (g : Nat → Ordering) : Nat → Nat → Nat → Nat
  | 0, _, base => base
  | fuel + 1, size, base =>
    if size ≤ 1 then base
    else
      let half := size / 2
      let mid := base + half
      binarySearchGo g fuel (size - half) (if g mid = .gt then base else mid)

/-- Rust `slice::binary_search_by`: `.ok i` with `f l[i] = .eq`, or
`.error i` with the insertion point `i`. -/
def rustBinarySearch (f : α → Ordering) (l : List α) : Except Nat Nat :=
  match l with
  | [] => .error 0
  | a :: _ =>
    let g := fun i => f (l.getD i a)
    let base := binarySearchGo g l.length l.length 0
    match g base with
    | .eq => .ok base
    | .lt => .error (base + 1)
    | .gt => .error base

/-- The monotone shape a comparator gets from a sorted list: probes below a
`lt` probe are `lt`, probes above a `gt` probe are `gt`. -/
def SearchShape (n : Nat) (g : Nat → Ordering) : Prop :=
  ∀ i j : Nat, i < j → j < n →
    (g j = .lt → g i = .lt) ∧ (g i = .gt → g j = .gt)

theorem binarySearchGo_bounds (g : Nat → Ordering) :
    ∀ fuel size base, 1 ≤ size →
      base ≤ binarySearchGo g fuel size base ∧
      binarySearchGo g fuel size base < base + size := by
  intro fuel
  induction fuel with
  | zero => intro size base h; simp [binarySearchGo]; omega
  | succ fuel ih =>
    intro size base h
    by_cases h1 : size ≤ 1
    · simp [binarySearchGo, h1]; omega
    · have hhalf : 1 ≤ size / 2 := by omega
      have hrec := ih (size - size / 2) (if g (base + size / 2) = .gt then base else size / 2 + base) (by omega)
      simp only [binarySearchGo, if_neg h1]
      by_cases hg : g (base + size / 2) = .gt
      · simp only [if_pos hg] at hrec ⊢
        have : base + size / 2 = size / 2 + base := by omega
        constructor
        · omega
        · omega
      · simp only [if_neg hg] at hrec ⊢
        have : base + size / 2 = size / 2 + base := by omega
        rw [this]
        constructor
        · omega
        · omega

theorem binarySearchGo_eq (g : Nat → Ordering) (n : Nat) (hshape : SearchShape n g) :
    ∀ fuel size base, 1 ≤ size → size ≤ fuel → base + size ≤ n →
      ∀ j, base ≤ j → j < base + size → g j = .eq →
        g (binarySearchGo g fuel size base) = .eq := by
  intro fuel
  induction fuel with
  | zero => intro size base h hf; omega
  | succ fuel ih =>
    intro size base h hf hn j hj1 hj2 hje
    by_cases h1 : size ≤ 1
    · have : j = base := by omega
      subst this
      simpa [binarySearchGo, h1] using hje
    · have hhalf : 1 ≤ size / 2 := by omega
      simp only [binarySearchGo, if_neg h1]
      by_cases hg : g (base + size / 2) = .gt
      · -- probe greater than the target: equal indices lie strictly below mid
        simp only [if_pos hg]
        have hjlt : j < base + size / 2 := by
          by_contra hge
          push_neg at hge
          rcases Nat.eq_or_lt_of_le hge with heq | hlt2
          · rw [heq] at hg; rw [hje] at hg; cases hg
          · have := (hshape (base + size / 2) j hlt2 (by omega)).2 hg
            rw [this] at hje; cases hje
        exact ih (size - size / 2) base (by omega) (by omega) (by omega) j hj1 (by omega) hje
      · -- probe less-or-equal: an equal index survives at or above mid
        simp only [if_neg hg]
        rcases Nat.lt_or_ge j (base + size / 2) with hjlt | hjge
        · -- the probed midpoint must itself be equal
          cases hmid : g (base + size / 2) with
          | lt =>
            have := (hshape j (base + size / 2) hjlt (by omega)).1 hmid
            rw [this] at hje; cases hje
          | eq =>
            exact ih (size - size / 2) (base + size / 2) (by omega) (by omega) (by omega)
              (base + size / 2) (by omega) (by omega) hmid
          | gt => exact absurd hmid hg
        · exact ih (size - size / 2) (base + size / 2) (by omega) (by omega) (by omega)
            j hjge (by omega) hje

theorem rustBinarySearch_found (f : α → Ordering) (l : List α)
    (hshape : ∀ i j : Nat, ∀ hi : i < l.length, ∀ hj : j < l.length, i < j →
      (f l[j] = .lt → f l[i] = .lt) ∧ (f l[i] = .gt → f l[j] = .gt))
    (j : Nat) (hj : j < l.length) (hje : f l[j] = .eq) :
    ∃ b, ∃ hb : b < l.length, rustBinarySearch f l = .ok b ∧ f l[b] = .eq := by
  cases l with
  | nil => simp at hj
  | cons a rest =>
    have hlen : 1 ≤ (a :: rest).length := by simp
    have hshape' : SearchShape (a :: rest).length (fun i => f ((a :: rest).getD i a)) := by
      intro i j hij hjn
      have hi : i < (a :: rest).length := lt_trans hij hjn
      simp only [List.getD_eq_getElem _ _ hjn, List.getD_eq_getElem _ _ hi]
      exact hshape i j hi hjn hij
    have hbounds := binarySearchGo_bounds (fun i => f ((a :: rest).getD i a))
      (a :: rest).length (a :: rest).length 0 hlen
    have heq := binarySearchGo_eq (fun i => f ((a :: rest).getD i a)) (a :: rest).length
      hshape' (a :: rest).length (a :: rest).length 0 hlen le_rfl (by omega) j (by omega)
      (by omega) (by simp only [List.getD_eq_getElem _ _ hj]; exact hje)
    have hb : binarySearchGo (fun i => f ((a :: rest).getD i a))
        (a :: rest).length (a :: rest).length 0 < (a :: rest).length := by omega
    have heq' : f ((a :: rest)[binarySearchGo (fun i => f ((a :: rest).getD i a))
        (a :: rest).length (a :: rest).length 0]) = .eq := by
      have := heq
      simpa only [List.getD_eq_getElem _ _ hb] using this
    refine ⟨_, hb, ?_, heq'⟩
    simp only [rustBinarySearch]
    have hgd : f ((a :: rest).getD (binarySearchGo (fun i => f ((a :: rest).getD i a))
        (a :: rest).length (a :: rest).length 0) a) = .eq := heq
    rw [hgd]

theorem rustBinarySearch_found_unique (f : α → Ordering) (l : List α)
    (hshape : ∀ i j : Nat, ∀ hi : i < l.length, ∀ hj : j < l.length, i < j →
      (f l[j] = .lt → f l[i] = .lt) ∧ (f l[i] = .gt → f l[j] = .gt))
    (huniq : ∀ i j : Nat, ∀ hi : i < l.length, ∀ hj : j < l.length,
      f l[i] = .eq → f l[j] = .eq → i = j)
    (j : Nat) (hj : j < l.length) (hje : f l[j] = .eq) :
    rustBinarySearch f l = .ok j := by
  obtain ⟨b, hb, hres, hbe⟩ := rustBinarySearch_found f l hshape j hj hje
  rwa [huniq b j hb hj hbe hje] at hres

/-! ### Cached segments (`memory.rs`, `CachedSegment`)

The bloom filter is abstracted by the list of keys on which `set` was
called; its `check` is modelled as membership.  This is a sound bloom
filter (no false negatives); false positives, which a real filter may
produce, only ever send a disk lookup down a path that is also reachable
without them, and no theorem below depends on their absence. -/

/-- Three-way comparison on `Nat` (Rust `u32::cmp`). -/
def cmpNat (a b : Nat) : Ordering :=
  if a < b then .lt else if b < a then .gt else .eq

/-- The comparator `a.as_uncompressed().cmp(&b.as_uncompressed())` used by
`sort_unstable_by`, as a binary relation. -/
def entryLe (S : SnappyImpl) (a b : Entry) : Prop :=
  strLe (a.asUncompressed S) (b.asUncompressed S)

instance (S : SnappyImpl) : DecidableRel (entryLe S) := fun a b =>
  inferInstanceAs (Decidable (strLe (a.asUncompressed S) (b.asUncompressed S)))

instance (S : SnappyImpl) : IsTotal Entry (entryLe S) :=
  ⟨fun a b => strLe_total (a.asUncompressed S) (b.asUncompressed S)⟩

instance (S : SnappyImpl) : IsTrans Entry (entryLe S) :=
  ⟨fun _ _ _ h1 h2 => strLe_trans h1 h2⟩

/-- The relation of `sort_unstable_by_key(|&(key, ..)| key)`: entry pairs
ordered by key index only. -/
def entryKeyLe (p q : Nat × Nat) : Prop := p.1 ≤ q.1

instance : DecidableRel entryKeyLe := fun p q =>
  inferInstanceAs (Decidable (p.1 ≤ q.1))

instance : IsTotal (Nat × Nat) entryKeyLe := ⟨fun p q => Nat.le_total p.1 q.1⟩

instance : IsTrans (Nat × Nat) entryKeyLe := ⟨fun _ _ _ h1 h2 => Nat.le_trans h1 h2⟩

/-- `.unwrap()` on a `binary_search_by` result; the `0` default models the
panic on `Err`, which the construction proofs show unreachable. -/
def unwrapIdx : Except Nat Nat → Nat
  | .ok i => i
  | .error _ => 0

structure CachedSegment where
  keys : List Entry
  values : List Entry
  entries : List (Nat × Nat)
  bloomKeys : List String
deriving DecidableEq

/-- `CachedSegment::to_keys_values_sets`.

The input map is an association list in iteration order.  The value set
(`FxHashSet`) is modelled by `List.dedup` of the concatenated value lists;
its iteration order is immaterial because the list is then sorted by a
total order that is injective on the deduplicated strings.

The source sorts with `sort_unstable_by`; the model sorts with the stable
`insertionSort`.  Both produce the same list here: key and value tables
have pairwise distinct sort keys, and on such lists every correct sort
agrees. -/
def toKeysValuesSets (S : SnappyImpl) (entries : List (String × List String)) :
    List Entry × List Entry :=
  let keys := entries.map (fun kv => Entry.new S kv.1)
  let keysSorted := keys.insertionSort (entryLe S)
  let values := ((entries.flatMap (fun kv => kv.2)).dedup).map (Entry.new S)
  let valuesSorted := values.insertionSort (entryLe S)
  (keysSorted, valuesSorted)

/-- Look up the index of `s` in a sorted entry table, as the source does
with `binary_search_by(|entry| entry.as_uncompressed().as_ref().cmp(s))`. -/
def tableSearch (S : SnappyImpl) (table : List Entry) (s : String) : Except Nat Nat :=
  rustBinarySearch (fun e => cmpStr (e.asUncompressed S) s) table

/-- `CachedSegment::new`.

`none` models the panic of `entries.len().ilog2()` on an empty input map
(reached before the bloom filter's own zero-element error could even be
returned); no `EmptySegment`-style error value exists in the source.

`entries_linear` is built in map iteration order, sorted unstably *by key
index only*, and deduplicated with `Vec::dedup`, which removes only
consecutive repeats (`List.destutter (· ≠ ·)`).  The unstable sort is
modelled by the stable `insertionSort`, which realises *one admissible
outcome* of `sort_unstable_by_key`; the source fixes no order for
equal-keyed entry pairs.  Accordingly, the claim exported from this
definition (C1) asserts only properties invariant under any within-key
permutation (the value set and length bounds), and the concrete
counterexamples use runs short enough (≤ 20 elements) for the source
sort's insertion-sort fallback, where every outcome coincides with the
stable one. -/
def CachedSegment.new? (S : SnappyImpl) (entries : List (String × List String)) :
    Option CachedSegment :=
  if entries.isEmpty then none
  else
    let (keysLinear, valuesLinear) := toKeysValuesSets S entries
    let bloomKeys := (entries.filter (fun kv => ¬ kv.2.isEmpty)).map (fun kv => kv.1)
    let entriesLinear := entries.flatMap (fun kv =>
      kv.2.map (fun v =>
        (unwrapIdx (tableSearch S keysLinear kv.1), unwrapIdx (tableSearch S valuesLinear v))))
    let entriesSorted := entriesLinear.insertionSort entryKeyLe
    some { keys := keysLinear
           values := valuesLinear
           entries := entriesSorted.destutter (· ≠ ·)
           bloomKeys := bloomKeys }

/-- The back-up loop of `CachedSegment::find`:
`while index > 0 && entries[index - 1].0 == key_index { index -= 1 }`. -/
def backUp (entries : List (Nat × Nat)) (keyIndex : Nat) : Nat → Nat
  | 0 => 0
  | i + 1 => if (entries.getD i (0, 0)).1 = keyIndex then backUp entries keyIndex i else i + 1

/-- The forward scan of `CachedSegment::find`: collect value indices until
the key index changes. -/
def collectVals (keyIndex : Nat) : List (Nat × Nat) → List Nat
  | [] => []
  | p :: rest => if p.1 = keyIndex then p.2 :: collectVals keyIndex rest else []

/-- `CachedSegment::find`.  The out-of-bounds default on the final value
dereference models the index panic, which the invariants rule out. -/
def CachedSegment.find (S : SnappyImpl) (seg : CachedSegment) (key : String) : List String :=
  match tableSearch S seg.keys key with
  | .error _ => []
  | .ok keyIndex =>
    match rustBinarySearch (fun p => cmpNat p.1 keyIndex) seg.entries with
    | .error _ => []
    | .ok i =>
      let start := backUp seg.entries keyIndex i
      (collectVals keyIndex (seg.entries.drop start)).map
        (fun vi => (seg.values.getD vi (.Uncompressed "")).asUncompressed S)

example :
    (CachedSegment.new? rleSnappy [("key", ["value", "value", "value2"])]).map
      (fun seg => CachedSegment.find rleSnappy seg "key") = some ["value", "value2"] := by
  decide

example :
    (CachedSegment.new? rleSnappy [("a", ["1"]), ("b", ["2"])]).map
      (fun seg => (CachedSegment.find rleSnappy seg "a", CachedSegment.find rleSnappy seg "b")) =
      some (["1"], ["2"]) := by
  decide

example :
    (CachedSegment.new? rleSnappy [("a", ["1"]), ("b", ["1"])]).map
      (fun seg => (seg.keys.length, seg.values.length, seg.entries.length)) =
      some (2, 1, 2) := by
  decide

example :
    (CachedSegment.new? rleSnappy [("exists", ["yes"])]).map
      (fun seg => CachedSegment.find rleSnappy seg "nope") = some [] := by
  decide

-- the C1 counterexample shape: an unsorted value list comes back in
-- occurrence order, not sorted
example :
    (CachedSegment.new? rleSnappy [("k", ["v2", "v1"])]).map
      (fun seg => CachedSegment.find rleSnappy seg "k") = some ["v2", "v1"] := by
  decide

-- the C7 counterexample shape: a non-adjacent duplicate survives
example :
    (CachedSegment.new? rleSnappy [("k", ["v1", "v2", "v1"])]).map
      (fun seg => seg.entries) = some [(0, 0), (0, 1), (0, 0)] := by
  decide

/-! ### General lemmas about the cached-segment construction -/

theorem cmpNat_eq_iff {a b : Nat} : cmpNat a b = .eq ↔ a = b := by
  unfold cmpNat
  by_cases h1 : a < b
  · simp [h1]; omega
  · by_cases h2 : b < a
    · simp [h1, h2]; omega
    · simp [h1, h2]; omega

theorem cmpNat_lt_iff {a b : Nat} : cmpNat a b = .lt ↔ a < b := by
  unfold cmpNat
  by_cases h1 : a < b
  · simp [h1]
  · by_cases h2 : b < a <;> simp [h1, h2]

theorem cmpNat_gt_iff {a b : Nat} : cmpNat a b = .gt ↔ b < a := by
  unfold cmpNat
  by_cases h1 : a < b
  · simp [h1]; omega
  · by_cases h2 : b < a <;> simp [h1, h2]

/-- Stability of the key-only insertion step: inserting `p` never crosses a
pair with the same key index, so filtering on one key index commutes. -/
theorem filter_orderedInsert_key (c : Nat) (p : Nat × Nat) (l : List (Nat × Nat)) :
    (List.orderedInsert entryKeyLe p l).filter (fun q => q.1 = c) =
      if p.1 = c then p :: l.filter (fun q => q.1 = c)
      else l.filter (fun q => q.1 = c) := by
  induction l with
  | nil => by_cases hp : p.1 = c <;> simp [List.orderedInsert, List.filter_cons, hp]
  | cons q l ih =>
    simp only [List.orderedInsert]
    by_cases hr : entryKeyLe p q
    · rw [if_pos hr]
      by_cases hp : p.1 = c <;> simp [List.filter_cons, hp]
    · rw [if_neg hr]
      unfold entryKeyLe at hr
      push_neg at hr
      simp only [List.filter_cons]
      by_cases hqc : q.1 = c
      · by_cases hp : p.1 = c
        · omega
        · simp [hqc, ih, hp]
      · by_cases hp : p.1 = c <;> simp [hqc, ih, hp]

/-- Stability of `insertionSort` under the key-only order: the subsequence
of pairs carrying one fixed key index is untouched by the sort. -/
theorem filter_insertionSort_key (c : Nat) (l : List (Nat × Nat)) :
    (l.insertionSort entryKeyLe).filter (fun q => q.1 = c) =
      l.filter (fun q => q.1 = c) := by
  induction l with
  | nil => rfl
  | cons p l ih =>
    simp only [List.insertionSort, filter_orderedInsert_key, ih, List.filter_cons]
    by_cases hp : p.1 = c <;> simp [hp]

/-- A list sorted by key index splits around any key index `c` into a
prefix of smaller keys, exactly its `c`-filter, and a suffix of larger
keys. -/
theorem sorted_key_decomp (l : List (Nat × Nat)) (hs : l.Sorted entryKeyLe) (c : Nat) :
    ∃ A B, l = A ++ l.filter (fun q => q.1 = c) ++ B ∧
      (∀ p ∈ A, p.1 < c) ∧ (∀ p ∈ B, c < p.1) := by
  induction l with
  | nil => exact ⟨[], [], by simp, by simp, by simp⟩
  | cons p l ih =>
    have hs' : l.Sorted entryKeyLe := hs.of_cons
    have hple : ∀ q ∈ l, p.1 ≤ q.1 := fun q hq => List.rel_of_sorted_cons hs q hq
    obtain ⟨A, B, hl, hA, hB⟩ := ih hs'
    rcases Nat.lt_trichotomy p.1 c with hlt | heq | hgt
    · refine ⟨p :: A, B, ?_, ?_, hB⟩
      · simp only [List.filter_cons, decide_eq_true_eq]
        rw [if_neg (by omega)]
        simpa using hl
      · intro q hq
        rcases List.mem_cons.mp hq with rfl | hq
        · exact hlt
        · exact hA q hq
    · -- the head carries key `c`: the smaller-key prefix of the tail is empty
      have hAnil : A = [] := by
        cases hA' : A with
        | nil => rfl
        | cons a A' =>
          have ha : a ∈ l := by
            rw [hl, hA']
            simp
          have := hple a ha
          have := hA a (by simp [hA'])
          omega
      refine ⟨[], B, ?_, by simp, hB⟩
      subst hAnil
      simp only [List.nil_append] at hl ⊢
      simp only [List.filter_cons, decide_eq_true_eq, if_pos heq]
      simpa using hl
    · -- the head is already past `c`: nothing with key `c` occurs at all
      have hfil : (p :: l).filter (fun q => q.1 = c) = [] := by
        rw [List.filter_eq_nil_iff]
        intro q hq
        rcases List.mem_cons.mp hq with rfl | hq
        · simp only [decide_eq_true_eq]; omega
        · have := hple q hq
          simp only [decide_eq_true_eq]; omega
      refine ⟨[], p :: l, by simp [hfil], by simp, ?_⟩
      intro q hq
      rcases List.mem_cons.mp hq with rfl | hq
      · exact hgt
      · have := hple q hq
        omega

/-- `destutter' (· ≠ ·)` distributes over an append whose boundary values
differ: the element carried across the boundary always has the value of
the last element of the left part. -/
theorem destutter'_ne_append [DecidableEq α] :
    ∀ (l₁ : List α) (b : α) (l₂ : List α),
      (∀ x, l₂.head? = some x → (b :: l₁).getLast (by simp) ≠ x) →
      List.destutter' (· ≠ ·) b (l₁ ++ l₂) =
        List.destutter' (· ≠ ·) b l₁ ++ List.destutter (· ≠ ·) l₂ := by
  intro l₁
  induction l₁ with
  | nil =>
    intro b l₂ hb
    cases l₂ with
    | nil => simp [List.destutter'_nil, List.destutter_nil]
    | cons x xs =>
      have hbx : b ≠ x := hb x rfl
      simp [List.destutter'_cons, List.destutter_cons', hbx]
  | cons y ys ih =>
    intro b l₂ hb
    have hlast : ∀ x, l₂.head? = some x → (y :: ys).getLast (by simp) ≠ x := by
      intro x hx
      have := hb x hx
      rwa [List.getLast_cons (by simp)] at this
    by_cases hby : b ≠ y
    · rw [List.cons_append, List.destutter'_cons_pos _ hby,
        List.destutter'_cons_pos _ hby, ih y l₂ hlast, List.cons_append]
    · push_neg at hby
      subst hby
      have hlast' : ∀ x, l₂.head? = some x → (b :: ys).getLast (by simp) ≠ x := by
        intro x hx
        have h1 := hlast x hx
        cases ys with
        | nil =>
          have h2 := hb x hx
          simpa using h2
        | cons z zs =>
          rw [List.getLast_cons (by simp)] at h1 ⊢
          exact h1
      rw [List.cons_append, List.destutter'_cons_neg _ (by simp),
        List.destutter'_cons_neg _ (by simp), ih b l₂ hlast']

/-- `destutter (· ≠ ·)` (Rust `Vec::dedup`) distributes over an append
whose boundary values differ. -/
theorem destutter_ne_append [DecidableEq α] (l₁ l₂ : List α) (h₁ : l₁ ≠ [])
    (hb : ∀ x, l₂.head? = some x → l₁.getLast h₁ ≠ x) :
    (l₁ ++ l₂).destutter (· ≠ ·) =
      l₁.destutter (· ≠ ·) ++ l₂.destutter (· ≠ ·) := by
  cases l₁ with
  | nil => exact absurd rfl h₁
  | cons a t =>
    rw [List.cons_append, List.destutter_cons', List.destutter_cons',
      destutter'_ne_append t a l₂ hb]

/-- `destutter' (· ≠ ·)` commutes with mapping an injective-on-members
function. -/
theorem destutter'_map_inj [DecidableEq α] [DecidableEq β] (f : α → β) :
    ∀ (l : List α) (a : α),
      (∀ x ∈ a :: l, ∀ y ∈ a :: l, f x = f y → x = y) →
      List.destutter' (· ≠ ·) (f a) (l.map f) =
        (List.destutter' (· ≠ ·) a l).map f := by
  intro l
  induction l with
  | nil => intro a _; simp [List.destutter'_nil]
  | cons y ys ih =>
    intro a hinj
    by_cases hay : a = y
    · subst hay
      rw [List.map_cons, List.destutter'_cons_neg _ (by simp),
        List.destutter'_cons_neg _ (by simp)]
      exact ih a (fun x hx y hy => hinj x (by
        rcases List.mem_cons.mp hx with rfl | hx
        · simp
        · simp [hx]) y (by
        rcases List.mem_cons.mp hy with rfl | hy
        · simp
        · simp [hy]))
    · have hfay : f a ≠ f y := fun hf => hay (hinj a (by simp) y (by simp) hf)
      rw [List.map_cons, List.destutter'_cons_pos _ hfay,
        List.destutter'_cons_pos _ (by simpa using hay), List.map_cons]
      congr 1
      exact ih y (fun x hx y' hy' => hinj x (by
        rcases List.mem_cons.mp hx with rfl | hx
        · simp
        · simp [hx]) y' (by
        rcases List.mem_cons.mp hy' with rfl | hy'
        · simp
        · simp [hy']))

/-- `destutter (· ≠ ·)` (Rust `Vec::dedup`) commutes with mapping an
injective-on-members function. -/
theorem destutter_map_inj [DecidableEq α] [DecidableEq β] (f : α → β) (l : List α)
    (hinj : ∀ x ∈ l, ∀ y ∈ l, f x = f y → x = y) :
    (l.map f).destutter (· ≠ ·) = (l.destutter (· ≠ ·)).map f := by
  cases l with
  | nil => simp
  | cons a t =>
    rw [List.map_cons, List.destutter_cons', List.destutter_cons',
      destutter'_map_inj f t a hinj]

/-- The sorted entry table built (by `to_keys_values_sets`) from a list of
strings. -/
def sortedTable (S : SnappyImpl) (strs : List String) : List Entry :=
  (strs.map (Entry.new S)).insertionSort (entryLe S)

theorem toKeysValuesSets_eq (S : SnappyImpl) (entries : List (String × List String)) :
    toKeysValuesSets S entries =
      (sortedTable S (entries.map (fun kv => kv.1)),
        sortedTable S ((entries.flatMap (fun kv => kv.2)).dedup)) := by
  simp only [toKeysValuesSets, sortedTable, List.map_map]
  rfl

theorem sortedTable_length (S : SnappyImpl) (strs : List String) :
    (sortedTable S strs).length = strs.length := by
  unfold sortedTable
  rw [List.length_insertionSort, List.length_map]

theorem sortedTable_mem (S : SnappyImpl) (strs : List String) {e : Entry}
    (he : e ∈ sortedTable S strs) : ∃ s ∈ strs, e = Entry.new S s := by
  unfold sortedTable at he
  have := (List.perm_insertionSort (entryLe S) (strs.map (Entry.new S))).mem_iff.mp he
  obtain ⟨s, hs, rfl⟩ := List.mem_map.mp this
  exact ⟨s, hs, rfl⟩

theorem sortedTable_decoded_perm (S : SnappyImpl) (strs : List String)
    (hrt : ∀ s ∈ strs, RoundTrips S s) :
    ((sortedTable S strs).map (Entry.asUncompressed S)).Perm strs := by
  have hperm : (sortedTable S strs).Perm (strs.map (Entry.new S)) :=
    List.perm_insertionSort (entryLe S) (strs.map (Entry.new S))
  have h1 : ((sortedTable S strs).map (Entry.asUncompressed S)).Perm
      ((strs.map (Entry.new S)).map (Entry.asUncompressed S)) := hperm.map _
  have h2 : (strs.map (Entry.new S)).map (Entry.asUncompressed S) = strs := by
    rw [List.map_map]
    have hpt : ∀ s ∈ strs, (Entry.asUncompressed S ∘ Entry.new S) s = id s :=
      fun s hs => asUncompressed_new S (hrt s hs)
    rw [List.map_congr_left hpt, List.map_id]
  rwa [h2] at h1

/-- On pairwise-distinct round-tripping strings, the sorted table is
strictly sorted in decoded text. -/
theorem sortedTable_strict (S : SnappyImpl) (strs : List String)
    (hrt : ∀ s ∈ strs, RoundTrips S s) (hnd : strs.Nodup) :
    (sortedTable S strs).Pairwise
      (fun a b => cmpStr (a.asUncompressed S) (b.asUncompressed S) = .lt) := by
  have hsorted : (sortedTable S strs).Pairwise (entryLe S) :=
    List.sorted_insertionSort (entryLe S) (strs.map (Entry.new S))
  have hdec : ((sortedTable S strs).map (Entry.asUncompressed S)).Nodup :=
    ((sortedTable_decoded_perm S strs hrt).nodup_iff).mpr hnd
  have hne : (sortedTable S strs).Pairwise
      (fun a b => a.asUncompressed S ≠ b.asUncompressed S) :=
    (List.pairwise_map).mp hdec
  have hand := hsorted.and hne
  refine hand.imp ?_
  intro a b hab
  rcases hab with ⟨hle, hne'⟩
  unfold entryLe strLe at hle
  cases hc : cmpStr (a.asUncompressed S) (b.asUncompressed S) with
  | lt => rfl
  | eq => exact absurd (cmpStr_eq_iff.mp hc) hne'
  | gt => exact absurd hc hle

/-- Every string of the input is found by `binary_search_by` at a unique
index of the sorted table, and decodes back to itself there. -/
theorem sortedTable_search (S : SnappyImpl) (strs : List String)
    (hrt : ∀ s ∈ strs, RoundTrips S s) (hnd : strs.Nodup)
    {s : String} (hs : s ∈ strs) :
    ∃ i, ∃ hi : i < (sortedTable S strs).length,
      ((sortedTable S strs)[i]).asUncompressed S = s ∧
      tableSearch S (sortedTable S strs) s = .ok i := by
  classical
  have hstrict := sortedTable_strict S strs hrt hnd
  have hstrict' := (List.pairwise_iff_getElem).mp hstrict
  -- membership of the encoded entry
  have hmem : Entry.new S s ∈ sortedTable S strs := by
    unfold sortedTable
    rw [(List.perm_insertionSort (entryLe S) (strs.map (Entry.new S))).mem_iff]
    exact List.mem_map.mpr ⟨s, hs, rfl⟩
  obtain ⟨i, hi, hie⟩ := List.getElem_of_mem hmem
  have hdec : ((sortedTable S strs)[i]).asUncompressed S = s := by
    rw [hie]; exact asUncompressed_new S (hrt s hs)
  have hshape : ∀ p q : Nat, ∀ hp : p < (sortedTable S strs).length,
      ∀ hq : q < (sortedTable S strs).length, p < q →
      ((cmpStr (((sortedTable S strs)[q]).asUncompressed S) s = .lt →
        cmpStr (((sortedTable S strs)[p]).asUncompressed S) s = .lt) ∧
       (cmpStr (((sortedTable S strs)[p]).asUncompressed S) s = .gt →
        cmpStr (((sortedTable S strs)[q]).asUncompressed S) s = .gt)) := by
    intro p q hp hq hpq
    have hlt := hstrict' p q hp hq hpq
    constructor
    · intro h
      exact cmpStr_lt_trans hlt h
    · intro h
      have h1 : cmpStr s (((sortedTable S strs)[p]).asUncompressed S) = .lt := by
        rw [cmpStr_swap, h]; rfl
      have h2 := cmpStr_lt_trans h1 hlt
      rw [cmpStr_swap] at h2
      cases hcq : cmpStr (((sortedTable S strs)[q]).asUncompressed S) s <;>
        simp [hcq, Ordering.swap] at h2 ⊢
  have huniq : ∀ p q : Nat, ∀ hp : p < (sortedTable S strs).length,
      ∀ hq : q < (sortedTable S strs).length,
      cmpStr (((sortedTable S strs)[p]).asUncompressed S) s = .eq →
      cmpStr (((sortedTable S strs)[q]).asUncompressed S) s = .eq → p = q := by
    intro p q hp hq hpe hqe
    by_contra hne
    have hps := cmpStr_eq_iff.mp hpe
    have hqs := cmpStr_eq_iff.mp hqe
    rcases Nat.lt_or_ge p q with h | h
    · have := hstrict' p q hp hq h
      rw [hps, hqs] at this
      rw [cmpStr_refl] at this
      cases this
    · rcases Nat.eq_or_lt_of_le h with h' | h'
      · exact hne h'.symm
      · have := hstrict' q p hq hp h'
        rw [hps, hqs] at this
        rw [cmpStr_refl] at this
        cases this
  have := rustBinarySearch_found_unique
    (fun e => cmpStr (e.asUncompressed S) s) (sortedTable S strs) hshape huniq i hi
    (by
      show cmpStr (((sortedTable S strs)[i]).asUncompressed S) s = .eq
      rw [hdec]; exact cmpStr_refl s)
  exact ⟨i, hi, hdec, this⟩

theorem collectVals_append (c : Nat) (F B : List (Nat × Nat))
    (hF : ∀ p ∈ F, p.1 = c) (hB : ∀ p ∈ B, p.1 ≠ c) :
    collectVals c (F ++ B) = F.map Prod.snd := by
  induction F with
  | nil =>
    cases B with
    | nil => rfl
    | cons b bs =>
      simp only [List.nil_append, collectVals, List.map_nil]
      rw [if_neg (hB b (by simp))]
  | cons p F ih =>
    simp only [List.cons_append, collectVals, List.map_cons]
    rw [if_pos (hF p (by simp))]
    congr 1
    exact ih (fun q hq => hF q (by simp [hq]))

/-- A convenient random access into the middle block of a three-way
append. -/
theorem getD_middle (A F B : List (Nat × Nat)) (d : Nat) (hd : d < F.length) :
    (A ++ F ++ B).getD (A.length + d) (0, 0) = F[d] := by
  have h1 : A.length + d < (A ++ F ++ B).length := by
    simp only [List.length_append]
    omega
  rw [List.getD_eq_getElem _ _ h1]
  rw [List.getElem_append]
  rw [dif_pos (show A.length + d < (A ++ F).length by
    simp only [List.length_append]; omega)]
  rw [List.getElem_append]
  rw [dif_neg (show ¬ A.length + d < A.length by omega)]
  congr 1
  omega

theorem getD_left (A rest : List (Nat × Nat)) (d : Nat) (hd : d < A.length) :
    (A ++ rest).getD d (0, 0) = A[d] := by
  have h1 : d < (A ++ rest).length := by
    simp only [List.length_append]; omega
  rw [List.getD_eq_getElem _ _ h1, List.getElem_append, dif_pos hd]

theorem backUp_at_start (A F B : List (Nat × Nat)) (c : Nat)
    (hA : ∀ p ∈ A, p.1 ≠ c) :
    backUp (A ++ F ++ B) c A.length = A.length := by
  cases hA' : A.length with
  | zero => simp [backUp]
  | succ n =>
    have hn : n < A.length := by omega
    simp only [backUp]
    have : (A ++ F ++ B).getD n (0, 0) = A[n] := by
      rw [List.append_assoc]
      exact getD_left A (F ++ B) n hn
    rw [this, if_neg (hA A[n] (List.getElem_mem hn))]

theorem backUp_run (A F B : List (Nat × Nat)) (c : Nat)
    (hA : ∀ p ∈ A, p.1 ≠ c) (hF : ∀ p ∈ F, p.1 = c) :
    ∀ d, d ≤ F.length → backUp (A ++ F ++ B) c (A.length + d) = A.length := by
  intro d
  induction d with
  | zero => intro _; exact backUp_at_start A F B c hA
  | succ d ih =>
    intro hd
    have hdF : d < F.length := by omega
    have : A.length + (d + 1) = (A.length + d) + 1 := by omega
    rw [this]
    simp only [backUp]
    rw [getD_middle A F B d hdF, if_pos (hF F[d] (List.getElem_mem hdF))]
    exact ih (by omega)

/-- The entries binary search plus back-up plus forward scan extract
exactly the filtered run of a key index from a sorted entries table. -/
theorem entries_run_extract (E : List (Nat × Nat)) (hs : E.Sorted entryKeyLe) (c : Nat)
    (hne : E.filter (fun q => q.1 = c) ≠ []) :
    ∃ i, rustBinarySearch (fun p => cmpNat p.1 c) E = .ok i ∧
      collectVals c (E.drop (backUp E c i)) =
        (E.filter (fun q => q.1 = c)).map Prod.snd := by
  classical
  obtain ⟨A, B, hE, hA, hB⟩ := sorted_key_decomp E hs c
  set F := E.filter (fun q => q.1 = c) with hF
  have hFmem : ∀ p ∈ F, p.1 = c := by
    intro p hp
    have := List.of_mem_filter hp
    simpa using this
  -- some index of E carries the key index c
  obtain ⟨p0, hp0⟩ := List.exists_mem_of_ne_nil F hne
  have hp0E : p0 ∈ E := List.mem_of_mem_filter hp0
  obtain ⟨j, hj, hjp⟩ := List.getElem_of_mem hp0E
  have hshape : ∀ p q : Nat, ∀ hp : p < E.length, ∀ hq : q < E.length, p < q →
      (cmpNat (E[q]).1 c = .lt → cmpNat (E[p]).1 c = .lt) ∧
      (cmpNat (E[p]).1 c = .gt → cmpNat (E[q]).1 c = .gt) := by
    intro p q hp hq hpq
    have hle : (E[p]).1 ≤ (E[q]).1 := (List.pairwise_iff_getElem.mp hs) p q hp hq hpq
    constructor
    · intro h
      rw [cmpNat_lt_iff] at h ⊢
      omega
    · intro h
      rw [cmpNat_gt_iff] at h ⊢
      omega
  obtain ⟨b, hb, hbok, hbe⟩ := rustBinarySearch_found (fun p => cmpNat p.1 c) E hshape j hj
    (by
      show cmpNat (E[j]).1 c = .eq
      rw [cmpNat_eq_iff, hjp]
      exact hFmem p0 hp0)
  have hbc : (E[b]).1 = c := cmpNat_eq_iff.mp hbe
  refine ⟨b, hbok, ?_⟩
  -- locate b inside the middle block
  have hlen : E.length = A.length + F.length + B.length := by
    rw [hE]; simp only [List.length_append]
  have hbAFB : b < (A ++ F ++ B).length := by
    rw [← hE]
    exact hb
  have hEb : E[b] = (A ++ F ++ B)[b] :=
    List.getElem_of_eq hE hb
  have hbmid : A.length ≤ b ∧ b < A.length + F.length := by
    constructor
    · by_contra hlt
      push_neg at hlt
      have hval : E[b] = A[b] := by
        rw [hEb, List.getElem_append]
        rw [dif_pos (show b < (A ++ F).length by
          simp only [List.length_append]; omega)]
        rw [List.getElem_append, dif_pos hlt]
      rw [hval] at hbc
      have hmem := hA (A[b]) (List.getElem_mem hlt)
      omega
    · by_contra hge
      push_neg at hge
      have hbB : b - (A.length + F.length) < B.length := by omega
      have hval : E[b] = B[b - (A.length + F.length)] := by
        rw [hEb, List.getElem_append]
        rw [dif_neg (show ¬ b < (A ++ F).length by
          simp only [List.length_append]; omega)]
        congr 1
        simp only [List.length_append]
      rw [hval] at hbc
      have hmem := hB (B[b - (A.length + F.length)]) (List.getElem_mem hbB)
      omega
  -- the back-up loop lands at the start of the run
  have hback : backUp E c b = A.length := by
    have : b = A.length + (b - A.length) := by omega
    rw [hE, this]
    exact backUp_run A F B c (fun p hp h => absurd h (by
      have := hA p hp; omega)) hFmem (b - A.length) (by omega)
  rw [hback]
  have hdrop : E.drop A.length = F ++ B := by
    rw [hE, List.append_assoc, List.drop_left]
  rw [hdrop]
  exact collectVals_append c F B hFmem (fun p hp => by
    have := hB p hp; omega)

/-- Filtering the flat pair list on one key's index extracts exactly that
key's block, in occurrence order, when key indices separate the keys. -/
theorem filter_flatMap_key (κ : String → Nat) (ν : String → Nat)
    (k : String) (vs : List String) :
    ∀ input : List (String × List String),
      (k, vs) ∈ input →
      (input.map Prod.fst).Nodup →
      (∀ k' ∈ input.map Prod.fst, κ k' = κ k → k' = k) →
      (input.flatMap (fun kv => kv.2.map (fun v => (κ kv.1, ν v)))).filter
        (fun q => q.1 = κ k) = vs.map (fun v => (κ k, ν v)) := by
  intro input
  induction input with
  | nil => intro hmem; cases hmem
  | cons kv rest ih =>
    intro hmem hnd hκ
    rw [List.flatMap_cons, List.filter_append]
    rcases List.mem_cons.mp hmem with heq | hmem'
    · -- the head is the queried key: its block passes, the rest is filtered out
      subst heq
      have hpass : (List.map (fun v => (κ k, ν v)) vs).filter (fun q => q.1 = κ k) =
          List.map (fun v => (κ k, ν v)) vs := by
        rw [List.filter_eq_self]
        intro p hp
        obtain ⟨v, _, rfl⟩ := List.mem_map.mp hp
        simp
      have hrest : (rest.flatMap (fun kv => kv.2.map (fun v => (κ kv.1, ν v)))).filter
          (fun q => q.1 = κ k) = [] := by
        rw [List.filter_eq_nil_iff]
        intro p hp
        obtain ⟨kv', hkv', hpmem⟩ := List.mem_flatMap.mp hp
        obtain ⟨v, _, rfl⟩ := List.mem_map.mp hpmem
        simp only [decide_eq_true_eq]
        intro hcontra
        have hk' : kv'.1 ∈ (rest.map Prod.fst) := List.mem_map_of_mem _ hkv'
        have hmemk : kv'.1 ∈ List.map Prod.fst ((k, vs) :: rest) := by
          rw [List.map_cons]
          exact List.mem_cons_of_mem _ hk'
        have hkk : kv'.1 = k := hκ kv'.1 hmemk hcontra
        rw [List.map_cons, List.nodup_cons] at hnd
        exact hnd.1 (hkk ▸ hk')
      rw [hpass, hrest, List.append_nil]
    · -- the head is a different key: its block is filtered out entirely
      have hk : k ∈ rest.map Prod.fst := by
        have h0 : k = (k, vs).1 := rfl
        rw [h0]
        exact List.mem_map_of_mem _ hmem'
      rw [List.map_cons, List.nodup_cons] at hnd
      have hkvk : kv.1 ≠ k := fun hcontra => hnd.1 (hcontra ▸ hk)
      have hhead : (List.map (fun v => (κ kv.1, ν v)) kv.2).filter
          (fun q => q.1 = κ k) = [] := by
        rw [List.filter_eq_nil_iff]
        intro p hp
        obtain ⟨v, _, rfl⟩ := List.mem_map.mp hp
        simp only [decide_eq_true_eq]
        intro hcontra
        refine hkvk (hκ kv.1 ?_ hcontra)
        rw [List.map_cons]
        exact List.mem_cons_self _ _
      rw [hhead, List.nil_append]
      refine ih hmem' hnd.2 ?_
      intro k' hk' h
      refine hκ k' ?_ h
      rw [List.map_cons]
      exact List.mem_cons_of_mem _ hk'

/-- Deduplicating a sorted three-block list and filtering its middle key
index gives the deduplicated middle block. -/
theorem destutter_decomp (c : Nat) (A K B : List (Nat × Nat)) (hK : K ≠ [])
    (hA : ∀ p ∈ A, p.1 < c) (hKc : ∀ p ∈ K, p.1 = c) (hB : ∀ p ∈ B, c < p.1) :
    ((A ++ K ++ B).destutter (· ≠ ·)).filter (fun q => q.1 = c) =
      K.destutter (· ≠ ·) := by
  classical
  have hKB : (K ++ B).destutter (· ≠ ·) = K.destutter (· ≠ ·) ++ B.destutter (· ≠ ·) := by
    cases hBc : B with
    | nil => simp
    | cons b bs =>
      subst hBc
      refine destutter_ne_append K (b :: bs) hK ?_
      intro x hx
      simp only [List.head?_cons, Option.some_inj] at hx
      subst hx
      intro hcontra
      have h1 := hKc (K.getLast hK) (List.getLast_mem hK)
      have h2 := hB b (by simp)
      rw [hcontra] at h1
      omega
  have hsplit : (A ++ K ++ B).destutter (· ≠ ·) =
      A.destutter (· ≠ ·) ++ (K.destutter (· ≠ ·) ++ B.destutter (· ≠ ·)) := by
    rw [List.append_assoc]
    cases hAc : A with
    | nil => subst hAc; simp [hKB]
    | cons a as_ =>
      subst hAc
      rw [destutter_ne_append (a :: as_) (K ++ B) (by simp) ?_, hKB]
      intro x hx
      have hx' : x ∈ K := by
        cases hKc' : K with
        | nil => exact absurd hKc' hK
        | cons k0 ks =>
          rw [hKc'] at hx
          simp only [List.cons_append, List.head?_cons, Option.some_inj] at hx
          subst hx
          simp [hKc']
      intro hcontra
      have h1 := hA ((a :: as_).getLast (by simp)) (List.getLast_mem (by simp))
      have h2 := hKc x hx'
      rw [hcontra] at h1
      omega
  rw [hsplit, List.filter_append, List.filter_append]
  have hfA : (A.destutter (· ≠ ·)).filter (fun q => q.1 = c) = [] := by
    rw [List.filter_eq_nil_iff]
    intro p hp
    have := hA p ((A.destutter_sublist (· ≠ ·)).mem hp)
    simp only [decide_eq_true_eq]
    omega
  have hfB : (B.destutter (· ≠ ·)).filter (fun q => q.1 = c) = [] := by
    rw [List.filter_eq_nil_iff]
    intro p hp
    have := hB p ((B.destutter_sublist (· ≠ ·)).mem hp)
    simp only [decide_eq_true_eq]
    omega
  have hfK : (K.destutter (· ≠ ·)).filter (fun q => q.1 = c) = K.destutter (· ≠ ·) := by
    rw [List.filter_eq_self]
    intro p hp
    have := hKc p ((K.destutter_sublist (· ≠ ·)).mem hp)
    simp [this]
  rw [hfA, hfB, hfK, List.nil_append, List.append_nil]

/-- Unfolding of `CachedSegment::new` on a non-empty input, with the two
sorted tables written through `sortedTable`. -/
theorem CachedSegment.new?_eq (S : SnappyImpl) (input : List (String × List String))
    (hne : input ≠ []) :
    CachedSegment.new? S input = some
      { keys := sortedTable S (input.map (fun kv => kv.1))
        values := sortedTable S ((input.flatMap (fun kv => kv.2)).dedup)
        entries :=
          List.destutter (· ≠ ·) (List.insertionSort entryKeyLe
            (input.flatMap (fun kv => kv.2.map (fun v =>
              (unwrapIdx (tableSearch S
                 (sortedTable S (input.map (fun kv' : String × List String => kv'.1))) kv.1),
               unwrapIdx (tableSearch S
                 (sortedTable S ((input.flatMap
                   (fun kv' : String × List String => kv'.2)).dedup)) v))))))
        bloomKeys := (input.filter (fun kv => ¬ kv.2.isEmpty)).map (fun kv => kv.1) } := by
  unfold CachedSegment.new?
  rw [if_neg (by simpa using hne)]
  rw [toKeysValuesSets_eq]

/-- What the *model's* `CachedSegment.new?` followed by `find(k)` computes:
the values of `k` in occurrence order with consecutive duplicates
collapsed (`Vec::dedup` semantics).  This pins down the model's
stable-sort realisation of `sort_unstable_by_key`; only its
permutation-invariant consequences — the value set and the length
bounds — are asserted of the program (claim C1), since the source fixes
no order for equal-keyed entry pairs. -/
theorem cachedFind_destutter (S : SnappyImpl) (input : List (String × List String))
    (hrt : ∀ s ∈ input.map Prod.fst ++ input.flatMap Prod.snd, RoundTrips S s)
    (hkeys : (input.map Prod.fst).Nodup)
    (k : String) (vs : List String) (hmem : (k, vs) ∈ input) (hvs : vs ≠ []) :
    ∃ seg, CachedSegment.new? S input = some seg ∧
      CachedSegment.find S seg k = vs.destutter (· ≠ ·) := by
  classical
  have hne : input ≠ [] := by rintro rfl; cases hmem
  have hkeys' : (input.map (fun kv => kv.1)).Nodup := hkeys
  have hrtK : ∀ s ∈ input.map (fun kv : String × List String => kv.1), RoundTrips S s :=
    fun s hs => hrt s (List.mem_append_left _ hs)
  have hrtV : ∀ s ∈ (input.flatMap (fun kv : String × List String => kv.2)).dedup,
      RoundTrips S s :=
    fun s hs => hrt s (List.mem_append_right _ (List.mem_dedup.mp hs))
  have hndV := List.nodup_dedup (input.flatMap (fun kv : String × List String => kv.2))
  set KT := sortedTable S (input.map (fun kv : String × List String => kv.1)) with hKT
  set VT := sortedTable S ((input.flatMap
    (fun kv : String × List String => kv.2)).dedup) with hVT
  set κ := fun k' => unwrapIdx (tableSearch S KT k') with hκdef
  set ν := fun v => unwrapIdx (tableSearch S VT v) with hνdef
  -- index specifications
  have hκ_spec : ∀ k' ∈ input.map (fun kv : String × List String => kv.1),
      κ k' < KT.length ∧
        (KT.getD (κ k') (.Uncompressed "")).asUncompressed S = k' ∧
        tableSearch S KT k' = .ok (κ k') := by
    intro k' hk'
    obtain ⟨i, hi, hdec, hok⟩ := sortedTable_search S _ hrtK hkeys' hk'
    have hval : κ k' = i := by rw [hκdef]; simp only [hok, unwrapIdx]
    rw [hval]
    refine ⟨hi, ?_, hok⟩
    rw [List.getD_eq_getElem KT _ hi]
    exact hdec
  have hν_spec : ∀ v ∈ (input.flatMap (fun kv : String × List String => kv.2)).dedup,
      ν v < VT.length ∧
        (VT.getD (ν v) (.Uncompressed "")).asUncompressed S = v ∧
        tableSearch S VT v = .ok (ν v) := by
    intro v hv
    obtain ⟨i, hi, hdec, hok⟩ := sortedTable_search S _ hrtV hndV hv
    have hval : ν v = i := by rw [hνdef]; simp only [hok, unwrapIdx]
    rw [hval]
    refine ⟨hi, ?_, hok⟩
    rw [List.getD_eq_getElem VT _ hi]
    exact hdec
  have hκ_inj : ∀ k1 ∈ input.map (fun kv : String × List String => kv.1),
      ∀ k2 ∈ input.map (fun kv : String × List String => kv.1), κ k1 = κ k2 → k1 = k2 := by
    intro k1 h1 k2 h2 h12
    obtain ⟨hi1, hdec1, _⟩ := hκ_spec k1 h1
    obtain ⟨hi2, hdec2, _⟩ := hκ_spec k2 h2
    rw [← hdec1, ← hdec2, h12]
  have hν_inj : ∀ v1 ∈ (input.flatMap (fun kv : String × List String => kv.2)).dedup,
      ∀ v2 ∈ (input.flatMap (fun kv : String × List String => kv.2)).dedup,
      ν v1 = ν v2 → v1 = v2 := by
    intro v1 h1 v2 h2 h12
    obtain ⟨hi1, hdec1, _⟩ := hν_spec v1 h1
    obtain ⟨hi2, hdec2, _⟩ := hν_spec v2 h2
    rw [← hdec1, ← hdec2, h12]
  set L := input.flatMap (fun kv => kv.2.map (fun v => (κ kv.1, ν v))) with hL
  set sortedE := L.insertionSort entryKeyLe with hsortedE
  set E := sortedE.destutter (· ≠ ·) with hE
  refine ⟨⟨KT, VT, E,
    (input.filter (fun kv => ¬ kv.2.isEmpty)).map (fun kv => kv.1)⟩, ?_, ?_⟩
  · rw [CachedSegment.new?_eq S input hne]
  · -- the find computation
    have hkmem : k ∈ input.map (fun kv : String × List String => kv.1) := by
      refine List.mem_map.mpr ⟨(k, vs), hmem, rfl⟩
    obtain ⟨hκk_lt, hκk_dec, hκk_ok⟩ := hκ_spec k hkmem
    -- the sorted entries list and its run for k
    have hsorted : sortedE.Sorted entryKeyLe := List.sorted_insertionSort entryKeyLe L
    have hEsorted : E.Sorted entryKeyLe :=
      (List.Pairwise.sublist (sortedE.destutter_sublist (· ≠ ·)) hsorted)
    have hvsub : ∀ v ∈ vs, v ∈ (input.flatMap (fun kv : String × List String => kv.2)).dedup := by
      intro v hv
      rw [List.mem_dedup]
      exact List.mem_flatMap.mpr ⟨(k, vs), hmem, hv⟩
    have hfL : L.filter (fun q => q.1 = κ k) = vs.map (fun v => (κ k, ν v)) := by
      rw [hL]
      refine filter_flatMap_key κ ν k vs input hmem hkeys ?_
      intro k' hk' h
      exact hκ_inj k' hk' k hkmem h
    have hfsorted : sortedE.filter (fun q => q.1 = κ k) = vs.map (fun v => (κ k, ν v)) := by
      rw [hsortedE, filter_insertionSort_key, hfL]
    -- decompose and push the dedup through
    obtain ⟨A, B, hdecomp, hA, hB⟩ := sorted_key_decomp sortedE hsorted (κ k)
    rw [hfsorted] at hdecomp
    have hKne : vs.map (fun v => (κ k, ν v)) ≠ [] := by
      simpa using hvs
    have hfE : E.filter (fun q => q.1 = κ k) =
        (vs.map (fun v => (κ k, ν v))).destutter (· ≠ ·) := by
      rw [hE, hdecomp]
      refine destutter_decomp (κ k) A _ B hKne hA ?_ hB
      intro p hp
      obtain ⟨v, _, rfl⟩ := List.mem_map.mp hp
      rfl
    have hmapdest : (vs.map (fun v => (κ k, ν v))).destutter (· ≠ ·) =
        (vs.destutter (· ≠ ·)).map (fun v => (κ k, ν v)) := by
      refine destutter_map_inj _ vs ?_
      intro x hx y hy hxy
      have hν12 : ν x = ν y := congrArg Prod.snd hxy
      exact hν_inj x (hvsub x hx) y (hvsub y hy) hν12
    have hfE' : E.filter (fun q => q.1 = κ k) =
        (vs.destutter (· ≠ ·)).map (fun v => (κ k, ν v)) := by
      rw [hfE, hmapdest]
    have hfEne : E.filter (fun q => q.1 = κ k) ≠ [] := by
      rw [hfE']
      simp only [ne_eq, List.map_eq_nil_iff]
      rw [List.destutter_eq_nil]
      exact hvs
    obtain ⟨i, hok2, hcollect⟩ := entries_run_extract E hEsorted (κ k) hfEne
    -- assemble the find computation
    show CachedSegment.find S
      ⟨KT, VT, E, (input.filter (fun kv => ¬ kv.2.isEmpty)).map (fun kv => kv.1)⟩ k =
      vs.destutter (· ≠ ·)
    unfold CachedSegment.find
    simp only [hκk_ok, hok2]
    rw [hcollect, hfE']
    rw [List.map_map, List.map_map]
    refine List.map_congr_left ?_ |>.trans (List.map_id (vs.destutter (· ≠ ·)))
    intro v hv
    have hvmem : v ∈ vs := (vs.destutter_sublist (· ≠ ·)).mem hv
    obtain ⟨hνlt, hνdec, _⟩ := hν_spec v (hvsub v hvmem)
    show ((VT.getD (ν v) (.Uncompressed "")).asUncompressed S) = id v
    rw [hνdec]
    rfl

/-! ### Disk segments (`disk.rs`)

Files are byte lists; multi-byte integers are big-endian (tokio's
`write_u32`/`write_u64` defaults).  `bloom.bin` is abstracted by the list
of keys the filter was built from (serialisation modelled as the
identity); this is a sound filter with no false positives, and no theorem
below depends on the presence or absence of false positives. -/

deriving instance DecidableEq for Except

/-- Big-endian encoding of `value` into `width` bytes. -/
def beBytes (width value : Nat) : List Nat :=
  (List.range width).map (fun i => value / 256 ^ (width - 1 - i) % 256)

/-- Big-endian value of a byte list. -/
def beVal (l : List Nat) : Nat :=
  l.foldl (fun a b => a * 256 + b) 0

/-- Read `len` bytes at `pos`; `none` models the `UnexpectedEof` I/O error
of `read_exact`/`read_u32`/`read_u64` (a seek past the end succeeds, the
following read fails). -/
def readBytes (file : List Nat) (pos len : Nat) : Option (List Nat) :=
  if pos + len ≤ file.length then some ((file.drop pos).take len) else none

def readU32 (file : List Nat) (pos : Nat) : Option Nat :=
  (readBytes file pos 4).map beVal

def readU64 (file : List Nat) (pos : Nat) : Option Nat :=
  (readBytes file pos 8).map beVal

/-- One record of a `<prefix>.data.bin` file: a 4-byte header whose bit 31
flags compression and whose low 31 bits hold the payload length, then the
payload. -/
def entryRecordBytes (e : Entry) : List Nat :=
  match e with
  | .Compressed buffer => beBytes 4 (Nat.lor (2 ^ 31) buffer.length) ++ buffer
  | .Uncompressed s => beBytes 4 (strBytes s).length ++ strBytes s

/-- `DiskSegment::write_full_table`: sequential records plus the byte
offset of each record's header. -/
def writeFullTableAux (pos : Nat) : List Entry → (List Nat × List Nat)
  | [] => ([], [])
  | e :: rest =>
    let rb := entryRecordBytes e
    let (d, offs) := writeFullTableAux (pos + rb.length) rest
    (rb ++ d, pos :: offs)

/-- `DiskSegment::write_lookup_table`: 8-byte big-endian offsets. -/
def writeLookupTable (offsets : List Nat) : List Nat :=
  (offsets.map (beBytes 8)).flatten

/-- The six files of a segment directory (`bloom.bin` abstracted). -/
structure DiskFiles where
  keysData : List Nat
  keysLookup : List Nat
  valuesData : List Nat
  valuesLookup : List Nat
  entriesBin : List Nat
  bloomKeys : List String
deriving DecidableEq

/-- `DiskSegment::flush_memory_segment`. -/
def flushMemorySegment (seg : CachedSegment) : DiskFiles :=
  let keysT := writeFullTableAux 0 seg.keys
  let valuesT := writeFullTableAux 0 seg.values
  { keysData := keysT.1
    keysLookup := writeLookupTable keysT.2
    valuesData := valuesT.1
    valuesLookup := writeLookupTable valuesT.2
    entriesBin := (seg.entries.map (fun p => beBytes 4 p.1 ++ beBytes 4 p.2)).flatten
    bloomKeys := seg.bloomKeys }

/-- `DiskResolutionError`.  `DataInvalidSize` is declared but never
constructed by the source's read path; `Aborted` models Rust panics
(`u64::ilog2` on an empty file, the `unwrap` of `snappy::uncompress` in
`into_uncompressed`), which are not error returns in the source. -/
inductive DiskResolutionError where
  | LookupInvalidSize
  | DataInvalidSize
  | BloomLoadError
  | Utf8Error
  | IoError
  | Aborted
deriving DecidableEq

/-- `u64::ilog2` (floor log base 2); the source panics on zero, which
callers below guard with an explicit `Aborted`. -/
def ilog2Aux : Nat → Nat → Nat
  | 0, _ => 0
  | fuel + 1, n => if n ≤ 1 then 0 else ilog2Aux fuel (n / 2) + 1

def ilog2N (n : Nat) : Nat := ilog2Aux n n

/-- `read_entry_within`: decode one data-file record at `offset`. -/
def readEntryWithin (S : SnappyImpl) (data : List Nat) (offset : Nat) :
    Except DiskResolutionError String :=
  match readU32 data offset with
  | none => .error .IoError
  | some lengthAndFlag =>
    let compressed := Nat.testBit lengthAndFlag 31
    let length := lengthAndFlag % 2 ^ 31
    match readBytes data (offset + 4) length with
    | none => .error .IoError
    | some buffer =>
      if compressed then
        match S.uncompress buffer with
        | none => .error .Aborted
        | some s => .ok s
      else
        match strOfBytes buffer with
        | none => .error .Utf8Error
        | some s => .ok s

/-- The key-table binary-search loop of `LinearMappedResolver::map_to_index`:
`for step in 2..length.ilog2() + 1`, moving `current` by
`max(size / 2^step, 1)` with wrapping `u32` arithmetic. -/
def mapToIndexGo (S : SnappyImpl) (data lookup : List Nat) (key : String) (size : Nat) :
    Nat → Nat → Nat → Except DiskResolutionError (Option Nat)
  | 0, _, _ => .ok none
  | fuel + 1, step, current =>
    match readU64 lookup (current * 8) with
    | none => .error .IoError
    | some offset =>
      match readEntryWithin S data offset with
      | .error e => .error e
      | .ok entry =>
        match cmpStr key entry with
        | .lt =>
          mapToIndexGo S data lookup key size fuel (step + 1)
            ((current + 2 ^ 32 - max (size / 2 ^ step) 1) % 2 ^ 32)
        | .gt =>
          mapToIndexGo S data lookup key size fuel (step + 1)
            ((current + max (size / 2 ^ step) 1) % 2 ^ 32)
        | .eq => .ok (some current)

/-- `LinearMappedResolver::map_to_index`. -/
def mapToIndex (S : SnappyImpl) (data lookup : List Nat) (key : String) :
    Except DiskResolutionError (Option Nat) :=
  if lookup.length % 8 ≠ 0 then .error .LookupInvalidSize
  else if lookup.length = 0 then .error .Aborted
  else
    let size := lookup.length / 8
    mapToIndexGo S data lookup key size (ilog2N lookup.length + 1 - 2) 2 (size / 2)

/-- `LinearMappedResolver::get_value_under`. -/
def getValueUnder (S : SnappyImpl) (data lookup : List Nat) (index : Nat) :
    Except DiskResolutionError String :=
  if lookup.length % 8 ≠ 0 then .error .LookupInvalidSize
  else
    match readU64 lookup (index * 8) with
    | none => .error .IoError
    | some offset => readEntryWithin S data offset

/-- `EntriesAndLinearMappedValueResolver::read_sequential`: collect values
until the key index changes or the file ends. -/
def readSequential (S : SnappyImpl) (vd vl entriesFile : List Nat) (key : Nat) :
    Nat → Nat → Except DiskResolutionError (List String)
  | 0, _ => .ok []
  | fuel + 1, pos =>
    match readU32 entriesFile pos with
    | none => .ok []
    | some index =>
      if index ≠ key then .ok []
      else
        match readU32 entriesFile (pos + 4) with
        | none => .error .IoError
        | some valueIndex =>
          match getValueUnder S vd vl valueIndex with
          | .error e => .error e
          | .ok s => (readSequential S vd vl entriesFile key fuel (pos + 8)).map (s :: ·)

/-- The backward walk of `resolve_entries_with_key`:
`while offset > 0`, step back while the previous record shares the key. -/
def entriesBackward (entriesFile : List Nat) (key : Nat) :
    Nat → Except DiskResolutionError Nat
  | 0 => .ok 0
  | off + 1 =>
    match readU32 entriesFile (off * 8) with
    | none => .error .IoError
    | some index =>
      if index ≠ key then .ok (off + 1) else entriesBackward entriesFile key off

/-- The entries binary-search loop of
`EntriesAndLinearMappedValueResolver::resolve_entries_with_key`. -/
def resolveEntriesGo (S : SnappyImpl) (vd vl entriesFile : List Nat) (key : Nat)
    (size : Nat) : Nat → Nat → Nat → Except DiskResolutionError (List String)
  | 0, _, _ => .ok []
  | fuel + 1, step, offset =>
    match readU32 entriesFile (offset * 8) with
    | none => .error .IoError
    | some index =>
      match cmpNat key index with
      | .lt =>
        resolveEntriesGo S vd vl entriesFile key size fuel (step + 1)
          ((offset + 2 ^ 32 - max (size / 2 ^ step) 1) % 2 ^ 32)
      | .gt =>
        resolveEntriesGo S vd vl entriesFile key size fuel (step + 1)
          ((offset + max (size / 2 ^ step) 1) % 2 ^ 32)
      | .eq =>
        match entriesBackward entriesFile key offset with
        | .error e => .error e
        | .ok start =>
          readSequential S vd vl entriesFile key (entriesFile.length + 1) (start * 8)

/-- `resolve_entries_with_key`. -/
def resolveEntriesWithKey (S : SnappyImpl) (vd vl entriesFile : List Nat) (key : Nat) :
    Except DiskResolutionError (List String) :=
  if entriesFile.length % 8 ≠ 0 then .error .LookupInvalidSize
  else if entriesFile.length = 0 then .error .Aborted
  else
    let size := entriesFile.length / 8
    resolveEntriesGo S vd vl entriesFile key size (ilog2N entriesFile.length + 1 - 2) 2
      (size / 2)

/-- `DiskSegment::find`: bloom gate, key resolution, entries resolution. -/
def DiskFiles.find (S : SnappyImpl) (files : DiskFiles) (key : String) :
    Except DiskResolutionError (List String) :=
  if key ∈ files.bloomKeys then
    match mapToIndex S files.keysData files.keysLookup key with
    | .error e => .error e
    | .ok none => .ok []
    | .ok (some keyIndex) =>
      resolveEntriesWithKey S files.valuesData files.valuesLookup files.entriesBin keyIndex
  else .ok []

/-! ### The tiered segment map (`segment/mod.rs`)

The state carries the queues and, in place of the filesystem, the segment
directory's listing (name ↦ files).  `VecDeque` front = list head =
oldest; `push_back` = append. -/

structure TieredSegmentMap where
  counter : Nat
  memory : List CachedSegment
  disk : List DiskFiles
  listing : List (String × DiskFiles)
deriving DecidableEq

inductive SegmentMapError where
  | IoError
  | UnknownFile
  | InvalidIndex
deriving DecidableEq

/-- `name.starts_with("seg-")` on the character list. -/
def startsWithSeg : List Char → Bool
  | 's' :: 'e' :: 'g' :: '-' :: _ => true
  | _ => false

/-- `str::split('-')` on the character list. -/
def splitDash : List Char → List (List Char)
  | [] => [[]]
  | c :: rest =>
    match splitDash rest with
    | [] => [[c]]
    | h :: t => if c = '-' then [] :: h :: t else (c :: h) :: t

/-- `str::parse::<usize>` restricted to plain decimal digits (the source
never feeds it a sign, and overflow is immaterial at the sizes involved). -/
def parseUsize (l : List Char) : Option Nat :=
  if l.isEmpty then none
  else if l.all (fun c => 48 ≤ c.toNat ∧ c.toNat ≤ 57) then
    some (l.foldl (fun acc c => acc * 10 + (c.toNat - 48)) 0)
  else none

/-- The recovery scan of `TieredSegmentMap::new`: fold over the directory
entries in iteration order, keeping the running `maximum_index` exactly as
the source does (`if maximum_index < path_index { maximum_index =
path_index + 1 }`) and opening each entry as a disk segment. -/
def tieredNewGo : List (String × DiskFiles) → Nat → List DiskFiles →
    Except SegmentMapError (Nat × List DiskFiles)
  | [], maxIdx, segs => .ok (maxIdx, segs)
  | (name, files) :: rest, maxIdx, segs =>
    if startsWithSeg name.data then
      match parseUsize ((splitDash name.data).getD 1 []) with
      | none => .error .InvalidIndex
      | some pathIndex =>
        tieredNewGo rest (if maxIdx < pathIndex then pathIndex + 1 else maxIdx)
          (segs ++ [files])
    else .error .UnknownFile

/-- `TieredSegmentMap::new`, reading the given directory listing. -/
def TieredSegmentMap.new (listing : List (String × DiskFiles)) :
    Except SegmentMapError TieredSegmentMap :=
  match tieredNewGo listing 0 [] with
  | .error e => .error e
  | .ok (maximumIndex, diskSegments) =>
    .ok { counter := maximumIndex, memory := [], disk := diskSegments, listing := listing }

/-- Decimal digits of a natural number (fuelled). -/
def natDigits : Nat → Nat → List Char
  | 0, _ => []
  | fuel + 1, n =>
    if n < 10 then [Char.ofNat (48 + n)]
    else natDigits fuel (n / 10) ++ [Char.ofNat (48 + n % 10)]

/-- `format!("{}", n)` for the segment directory name. -/
def natToStr (n : Nat) : String :=
  String.mk (natDigits (n + 1) n)

/-- `TieredSegmentMap::write_segment`: pre-increment the counter, create
the directory `format!("{}-segment", counter)`, flush the cached segment
into it.  Returns the updated state and the new segment's files. -/
def TieredSegmentMap.writeSegment (st : TieredSegmentMap) (memorySegment : CachedSegment) :
    TieredSegmentMap × DiskFiles × String :=
  let counter' := st.counter + 1
  let name := natToStr counter' ++ "-segment"
  let files := flushMemorySegment memorySegment
  ({ st with counter := counter', listing := st.listing ++ [(name, files)] }, files, name)

/-- `TieredSegmentMap::insert`.  `none` models the construction panic on
an empty input map. -/
def TieredSegmentMap.insert (S : SnappyImpl) (st : TieredSegmentMap)
    (values : List (String × List String)) : Option TieredSegmentMap :=
  match CachedSegment.new? S values with
  | none => none
  | some memorySegment =>
    if memorySegment.values.length > 4096 then
      let w := st.writeSegment memorySegment
      some { w.1 with disk := w.1.disk ++ [w.2.1] }
    else
      some { st with memory := st.memory ++ [memorySegment] }

/-- The memory-tier loop of `TieredSegmentMap::find`: consult segments
front to back while the remaining budget (if any) is positive, subtracting
each segment's yield with `saturating_sub`. -/
def findMemGo (S : SnappyImpl) (key : String) :
    List CachedSegment → Option Nat → List String × Option Nat
  | [], limit => ([], limit)
  | seg :: rest, limit =>
    if (limit.map (fun x => decide (0 < x))).getD true then
      let found := CachedSegment.find S seg key
      let limit' := limit.map (fun v => v - found.length)
      let next := findMemGo S key rest limit'
      (found ++ next.1, next.2)
    else ([], limit)

/-- The disk-tier loop of `TieredSegmentMap::find`; a segment error aborts
the whole find. -/
def findDiskGo (S : SnappyImpl) (key : String) :
    List DiskFiles → Option Nat → Except DiskResolutionError (List String × Option Nat)
  | [], limit => .ok ([], limit)
  | files :: rest, limit =>
    if (limit.map (fun x => decide (0 < x))).getD true then
      match files.find S key with
      | .error e => .error e
      | .ok found =>
        let limit' := limit.map (fun v => v - found.length)
        match findDiskGo S key rest limit' with
        | .error e => .error e
        | .ok next => .ok (found ++ next.1, next.2)
    else .ok ([], limit)

/-- `TieredSegmentMap::find`: `Some(0)` returns immediately; otherwise
memory segments front to back, then disk segments, then truncate to the
original limit. -/
def TieredSegmentMap.find (S : SnappyImpl) (st : TieredSegmentMap) (key : String)
    (limit : Option Nat) : Except DiskResolutionError (List String) :=
  let atMost := limit
  if limit = some 0 then .ok []
  else
    let memPhase := findMemGo S key st.memory limit
    match findDiskGo S key st.disk memPhase.2 with
    | .error e => .error e
    | .ok diskPhase =>
      let entries := memPhase.1 ++ diskPhase.1
      match atMost with
      | some am => .ok (if entries.length > am then entries.take am else entries)
      | none => .ok entries

/-! ### The partition map (`partition.rs`)

The partition root is a mapping from directory names to directory
listings; the Z-base-32 encoding of partition identifiers is abstracted as
a parameter `enc` (its only relevant property, injectivity, plays no role
in the claims below). -/

inductive PartitionError where
  | IoError
  | ResolutionError (source : DiskResolutionError)
  | CreationError (source : SegmentMapError)
deriving DecidableEq

/-- The key loop of `PartitionMap::search` for one partition: find with
the shared limit, extend the accumulated result, then either shrink the
limit by `value.saturating_sub(result.len())` or break — leaving the
limit unchanged — when that hits zero. -/
def searchKeysGo (S : SnappyImpl) (segments : TieredSegmentMap) :
    List String → List String → Option Nat →
    Except DiskResolutionError (List String × Option Nat)
  | [], acc, limit => .ok (acc, limit)
  | key :: keys, acc, limit =>
    match segments.find S key limit with
    | .error e => .error e
    | .ok found =>
      let acc' := acc ++ found
      match limit with
      | some value =>
        let left := value - acc'.length
        if 0 < left then searchKeysGo S segments keys acc' (some left)
        else .ok (acc', some value)
      | none => searchKeysGo S segments keys acc' none

/-- The partition loop of `PartitionMap::search`. -/
def searchPartGo (S : SnappyImpl) (enc : String → String)
    (root : String → List (String × DiskFiles)) :
    List (String × List String) → List String → Option Nat →
    Except PartitionError (List String)
  | [], acc, _ => .ok acc
  | (partition, keys) :: rest, acc, limit =>
    match TieredSegmentMap.new (root (enc partition)) with
    | .error e => .error (.CreationError e)
    | .ok segments =>
      match searchKeysGo S segments keys acc limit with
      | .error e => .error (.ResolutionError e)
      | .ok r => searchPartGo S enc root rest r.1 r.2

/-- `PartitionMap::search`. -/
def PartitionMap.search (S : SnappyImpl) (enc : String → String)
    (root : String → List (String × DiskFiles))
    (query : List (String × List String)) (limit : Option Nat) :
    Except PartitionError (List String) :=
  searchPartGo S enc root query [] limit

/-- The entry-table invariants `CachedSegment::new` actually establishes:
sorted ascending by key index, no *adjacent* duplicate pairs, and indices
in range.  (Order within a key is occurrence order, not value order, and
non-adjacent duplicates survive; see the C7 counterexample.) -/
theorem entries_invariants (S : SnappyImpl) (input : List (String × List String))
    (hrt : ∀ s ∈ input.map Prod.fst ++ input.flatMap Prod.snd, RoundTrips S s)
    (hkeys : (input.map Prod.fst).Nodup) (hne : input ≠ []) :
    ∃ seg, CachedSegment.new? S input = some seg ∧
      seg.entries.Sorted entryKeyLe ∧
      seg.entries.Chain' (· ≠ ·) ∧
      ∀ p ∈ seg.entries, p.1 < seg.keys.length ∧ p.2 < seg.values.length := by
  classical
  have hkeys' : (input.map (fun kv => kv.1)).Nodup := hkeys
  have hrtK : ∀ s ∈ input.map (fun kv : String × List String => kv.1), RoundTrips S s :=
    fun s hs => hrt s (List.mem_append_left _ hs)
  have hrtV : ∀ s ∈ (input.flatMap (fun kv : String × List String => kv.2)).dedup,
      RoundTrips S s :=
    fun s hs => hrt s (List.mem_append_right _ (List.mem_dedup.mp hs))
  have hndV := List.nodup_dedup (input.flatMap (fun kv : String × List String => kv.2))
  set KT := sortedTable S (input.map (fun kv : String × List String => kv.1)) with hKT
  set VT := sortedTable S ((input.flatMap
    (fun kv : String × List String => kv.2)).dedup) with hVT
  set κ := fun k' => unwrapIdx (tableSearch S KT k') with hκdef
  set ν := fun v => unwrapIdx (tableSearch S VT v) with hνdef
  set L := input.flatMap (fun kv => kv.2.map (fun v => (κ kv.1, ν v))) with hL
  set sortedE := L.insertionSort entryKeyLe with hsortedE
  set E := sortedE.destutter (· ≠ ·) with hE
  refine ⟨⟨KT, VT, E,
    (input.filter (fun kv => ¬ kv.2.isEmpty)).map (fun kv => kv.1)⟩, ?_, ?_, ?_, ?_⟩
  · rw [CachedSegment.new?_eq S input hne]
  · exact (List.Pairwise.sublist (sortedE.destutter_sublist (· ≠ ·))
      (List.sorted_insertionSort entryKeyLe L))
  · exact sortedE.destutter_is_chain' (· ≠ ·)
  · intro p hp
    have hpL : p ∈ L := by
      have h1 : p ∈ sortedE := (sortedE.destutter_sublist (· ≠ ·)).mem hp
      exact (List.perm_insertionSort entryKeyLe L).mem_iff.mp h1
    obtain ⟨kv, hkv, hpmem⟩ := List.mem_flatMap.mp hpL
    obtain ⟨v, hv, rfl⟩ := List.mem_map.mp hpmem
    constructor
    · obtain ⟨i, hi, _, hok⟩ := sortedTable_search S _ hrtK hkeys'
        (List.mem_map.mpr ⟨kv, hkv, rfl⟩)
      show κ kv.1 < KT.length
      rw [hκdef]
      simp only [hok, unwrapIdx]
      exact hi
    · have hvmem : v ∈ (input.flatMap (fun kv : String × List String => kv.2)).dedup := by
        rw [List.mem_dedup]
        exact List.mem_flatMap.mpr ⟨kv, hkv, hv⟩
      obtain ⟨i, hi, _, hok⟩ := sortedTable_search S _ hrtV hndV hvmem
      show ν v < VT.length
      rw [hνdef]
      simp only [hok, unwrapIdx]
      exact hi

/-! ### Limit behaviour of `TieredSegmentMap::find` -/

theorem findMemGo_zero (S : SnappyImpl) (key : String) (segs : List CachedSegment) :
    findMemGo S key segs (some 0) = ([], some 0) := by
  cases segs <;> simp [findMemGo]

theorem findDiskGo_zero (S : SnappyImpl) (key : String) (segs : List DiskFiles) :
    findDiskGo S key segs (some 0) = .ok ([], some 0) := by
  cases segs <;> simp [findDiskGo]

theorem findMemGo_none (S : SnappyImpl) (key : String) (segs : List CachedSegment) :
    findMemGo S key segs none =
      ((segs.map (fun sg => CachedSegment.find S sg key)).flatten, none) := by
  induction segs with
  | nil => rfl
  | cons sg rest ih => simp [findMemGo, ih]


theorem findMemGo_cons_pos (S : SnappyImpl) (key : String) (sg : CachedSegment)
    (rest : List CachedSegment) (v : Nat) (hv : 0 < v) :
    findMemGo S key (sg :: rest) (some v) =
      ((CachedSegment.find S sg key) ++
        (findMemGo S key rest (some (v - (CachedSegment.find S sg key).length))).1,
       (findMemGo S key rest (some (v - (CachedSegment.find S sg key).length))).2) := by
  simp [findMemGo, hv]

theorem findDiskGo_cons_none (S : SnappyImpl) (key : String) (files : DiskFiles)
    (rest : List DiskFiles) :
    findDiskGo S key (files :: rest) none =
      (match files.find S key with
       | .error e => .error e
       | .ok found =>
         match findDiskGo S key rest none with
         | .error e => .error e
         | .ok next => .ok (found ++ next.1, next.2)) := rfl

theorem findDiskGo_cons_pos (S : SnappyImpl) (key : String) (files : DiskFiles)
    (rest : List DiskFiles) (v : Nat) (hv : 0 < v) :
    findDiskGo S key (files :: rest) (some v) =
      (match files.find S key with
       | .error e => .error e
       | .ok found =>
         match findDiskGo S key rest (some (v - found.length)) with
         | .error e => .error e
         | .ok next => .ok (found ++ next.1, next.2)) := by
  simp [findDiskGo, hv]

theorem findMemGo_some (S : SnappyImpl) (key : String) (segs : List CachedSegment)
    (v : Nat) (hv : 0 < v) :
    ((findMemGo S key segs (some v)).1 =
        (segs.map (fun sg => CachedSegment.find S sg key)).flatten ∧
      (findMemGo S key segs (some v)).2 =
        some (v - ((segs.map (fun sg => CachedSegment.find S sg key)).flatten).length)) ∨
    (v ≤ (findMemGo S key segs (some v)).1.length ∧
      (findMemGo S key segs (some v)).1.take v =
        ((segs.map (fun sg => CachedSegment.find S sg key)).flatten).take v ∧
      (findMemGo S key segs (some v)).2 = some 0) := by
  induction segs generalizing v with
  | nil => left; simp [findMemGo]
  | cons sg rest ih =>
    rw [findMemGo_cons_pos S key sg rest v hv]
    simp only [List.map_cons, List.flatten_cons]
    generalize hfound : CachedSegment.find S sg key = found
    by_cases hz : v - found.length = 0
    · -- budget exhausted on this segment: the rest is not consulted
      right
      rw [hz, findMemGo_zero]
      refine ⟨by simp only [List.length_append]; omega, ?_, rfl⟩
      rw [List.append_nil, List.take_append_of_le_length (show v ≤ found.length by omega)]
    · rcases ih (v - found.length) (by omega) with ⟨h1, h2⟩ | ⟨h1, h2, h3⟩
      · left
        constructor
        · simp [h1]
        · simp only [h2, List.length_append]
          congr 1
          omega
      · right
        refine ⟨?_, ?_, h3⟩
        · simp only [List.length_append]
          omega
        · rw [List.take_append_eq_append_take,
            List.take_of_length_le (show found.length ≤ v by omega), h2,
            List.take_append_eq_append_take,
            List.take_of_length_le (show found.length ≤ v by omega)]

theorem findDiskGo_cons_none_okok (S : SnappyImpl) (key : String) (files : DiskFiles)
    (rest : List DiskFiles) (found : List String) (next : List String × Option Nat)
    (hfind : files.find S key = .ok found)
    (hrest : findDiskGo S key rest none = .ok next) :
    findDiskGo S key (files :: rest) none = .ok (found ++ next.1, next.2) := by
  rw [findDiskGo_cons_none, hfind]
  show (match findDiskGo S key rest none with
    | .error e => Except.error e
    | .ok next => Except.ok (found ++ next.1, next.2)) = _
  rw [hrest]

theorem findDiskGo_cons_pos_okok (S : SnappyImpl) (key : String) (files : DiskFiles)
    (rest : List DiskFiles) (v : Nat) (hv : 0 < v) (found : List String)
    (next : List String × Option Nat)
    (hfind : files.find S key = .ok found)
    (hrest : findDiskGo S key rest (some (v - found.length)) = .ok next) :
    findDiskGo S key (files :: rest) (some v) = .ok (found ++ next.1, next.2) := by
  rw [findDiskGo_cons_pos S key files rest v hv, hfind]
  show (match findDiskGo S key rest (some (v - found.length)) with
    | .error e => Except.error e
    | .ok next => Except.ok (found ++ next.1, next.2)) = _
  rw [hrest]

theorem findDiskGo_none_ok (S : SnappyImpl) (key : String) (segs : List DiskFiles)
    (D : List String) (l' : Option Nat)
    (hok : findDiskGo S key segs none = .ok (D, l')) : l' = none := by
  induction segs generalizing D l' with
  | nil =>
    simp only [findDiskGo] at hok
    injection hok with h
    exact (congrArg Prod.snd h).symm
  | cons files rest ih =>
    rw [findDiskGo_cons_none] at hok
    cases hfind : files.find S key with
    | error e => rw [hfind] at hok; cases hok
    | ok found =>
      rw [hfind] at hok
      cases hrest : findDiskGo S key rest none with
      | error e => rw [hrest] at hok; cases hok
      | ok next =>
        rw [hrest] at hok
        have hok2 : (Except.ok (found ++ next.1, next.2) :
            Except DiskResolutionError (List String × Option Nat)) = .ok (D, l') := hok
        injection hok2 with h
        have hsnd : next.2 = l' := congrArg Prod.snd h
        rw [← hsnd]
        exact ih next.1 next.2 (by rw [hrest])

theorem findDiskGo_some_of_none (S : SnappyImpl) (key : String) (segs : List DiskFiles)
    (v : Nat) (hv : 0 < v) (D : List String)
    (hok : findDiskGo S key segs none = .ok (D, none)) :
    (findDiskGo S key segs (some v) = .ok (D, some (v - D.length))) ∨
    (∃ c, findDiskGo S key segs (some v) = .ok (c, some 0) ∧
      v ≤ c.length ∧ c.take v = D.take v) := by
  induction segs generalizing v D with
  | nil =>
    left
    simp only [findDiskGo] at hok ⊢
    injection hok with h
    have hD : D = [] := (congrArg Prod.fst h).symm
    subst hD
    rfl
  | cons files rest ih =>
    rw [findDiskGo_cons_none] at hok
    cases hfind : files.find S key with
    | error e => rw [hfind] at hok; cases hok
    | ok found =>
      rw [hfind] at hok
      cases hrest : findDiskGo S key rest none with
      | error e => rw [hrest] at hok; cases hok
      | ok next =>
        rw [hrest] at hok
        have hok2 : (Except.ok (found ++ next.1, next.2) :
            Except DiskResolutionError (List String × Option Nat)) = .ok (D, none) := hok
        injection hok2 with h
        have hD : D = found ++ next.1 := (congrArg Prod.fst h).symm
        have hn2 : next.2 = none := congrArg Prod.snd h
        have hok1 : findDiskGo S key rest none = .ok (next.1, none) := by
          rw [hrest, ← hn2]
        by_cases hz : v - found.length = 0
        · right
          have hstep := findDiskGo_cons_pos_okok S key files rest v hv found ([], some 0)
            hfind (by rw [hz]; exact findDiskGo_zero S key rest)
          rw [List.append_nil] at hstep
          refine ⟨found, hstep, by omega, ?_⟩
          rw [hD, List.take_append_of_le_length (show v ≤ found.length by omega)]
        · rcases ih (v - found.length) (by omega) next.1 hok1 with h1 | ⟨c, h1, h2, h3⟩
          · left
            have hstep := findDiskGo_cons_pos_okok S key files rest v hv found
              (next.1, some (v - found.length - next.1.length)) hfind h1
            rw [hstep, hD]
            simp only [List.length_append]
            have harith : v - found.length - next.1.length =
                v - (found.length + next.1.length) := by omega
            rw [harith]
          · right
            have hstep := findDiskGo_cons_pos_okok S key files rest v hv found
              (c, some 0) hfind h1
            refine ⟨found ++ c, hstep, ?_, ?_⟩
            · simp only [List.length_append]
              omega
            · rw [hD, List.take_append_eq_append_take,
                List.take_of_length_le (show found.length ≤ v by omega), h3,
                List.take_append_eq_append_take,
                List.take_of_length_le (show found.length ≤ v by omega)]

theorem truncate_eq_take (l : List String) (am : Nat) :
    (if l.length > am then l.take am else l) = l.take am := by
  by_cases h : l.length > am
  · rw [if_pos h]
  · rw [if_neg h, List.take_of_length_le (by omega)]

/-- `TieredSegmentMap::find` without a limit: all memory results in queue
order, then all disk results. -/
theorem tieredFind_none_eq (S : SnappyImpl) (st : TieredSegmentMap) (key : String) :
    st.find S key none =
      (match findDiskGo S key st.disk none with
       | .error e => .error e
       | .ok dp =>
         .ok ((st.memory.map (fun sg => CachedSegment.find S sg key)).flatten ++ dp.1)) := by
  unfold TieredSegmentMap.find
  rw [if_neg (show ¬ (none : Option Nat) = some 0 by simp)]
  rw [findMemGo_none]

theorem tieredFind_some_pos_eq (S : SnappyImpl) (st : TieredSegmentMap) (key : String)
    (L : Nat) (hL : 0 < L) :
    st.find S key (some L) =
      (match findDiskGo S key st.disk (findMemGo S key st.memory (some L)).2 with
       | .error e => .error e
       | .ok dp => .ok (((findMemGo S key st.memory (some L)).1 ++ dp.1).take L)) := by
  unfold TieredSegmentMap.find
  rw [if_neg (show ¬ (some L : Option Nat) = some 0 by
    simp only [Option.some_inj]
    omega)]
  dsimp only
  cases findDiskGo S key st.disk (findMemGo S key st.memory (some L)).2 with
  | error e => rfl
  | ok dp =>
    dsimp only
    rw [truncate_eq_take]

/-- `TieredSegmentMap::find` with limit `L` returns exactly the first `L`
elements of the unlimited result. -/
theorem tieredFind_take (S : SnappyImpl) (st : TieredSegmentMap) (key : String)
    (L : Nat) (total : List String) (hok : st.find S key none = .ok total) :
    st.find S key (some L) = .ok (total.take L) := by
  classical
  rw [tieredFind_none_eq] at hok
  cases hdisk : findDiskGo S key st.disk none with
  | error e => rw [hdisk] at hok; exact absurd hok (by simp)
  | ok dp =>
    rw [hdisk] at hok
    dsimp only at hok
    have hdp2 : dp.2 = none := findDiskGo_none_ok S key st.disk dp.1 dp.2 (by
      rw [hdisk])
    have htotal : (st.memory.map (fun sg => CachedSegment.find S sg key)).flatten ++ dp.1 =
        total := by
      injection hok
    have hdisk' : findDiskGo S key st.disk none = .ok (dp.1, none) := by
      rw [hdisk, ← hdp2]
    by_cases hL : L = 0
    · subst hL
      unfold TieredSegmentMap.find
      rw [if_pos rfl]
      simp
    · have hLpos : 0 < L := by omega
      rw [tieredFind_some_pos_eq S st key L hLpos]
      rcases findMemGo_some S key st.memory L hLpos with ⟨hm1, hm2⟩ | ⟨hm1, hm2, hm3⟩
      · -- the memory tier was consulted in full
        rw [hm1, hm2]
        by_cases hw : L - ((st.memory.map
            (fun sg => CachedSegment.find S sg key)).flatten).length = 0
        · rw [hw, findDiskGo_zero]
          dsimp only
          rw [List.append_nil, ← htotal,
            List.take_append_of_le_length (show L ≤ ((st.memory.map
              (fun sg => CachedSegment.find S sg key)).flatten).length by omega)]
        · have hwpos : 0 < L - ((st.memory.map
              (fun sg => CachedSegment.find S sg key)).flatten).length := by omega
          rcases findDiskGo_some_of_none S key st.disk _ hwpos dp.1 hdisk'
            with hd | ⟨c, hd1, hd2, hd3⟩
          · rw [hd]
            dsimp only
            rw [htotal]
          · rw [hd1]
            dsimp only
            rw [← htotal, List.take_append_eq_append_take,
              List.take_append_eq_append_take,
              List.take_of_length_le (show ((st.memory.map
                (fun sg => CachedSegment.find S sg key)).flatten).length ≤ L by omega),
              hd3]
      · -- the memory tier exhausted the budget
        rw [hm3, findDiskGo_zero]
        dsimp only
        have hlenM : L ≤ ((st.memory.map
            (fun sg => CachedSegment.find S sg key)).flatten).length := by
          have hc := congrArg List.length hm2
          rw [List.length_take, List.length_take] at hc
          omega
        rw [List.append_nil, hm2, ← htotal, List.take_append_of_le_length hlenM]

/-- The length returned under a limit never exceeds the limit. -/
theorem tieredFind_length_le (S : SnappyImpl) (st : TieredSegmentMap) (key : String)
    (L : Nat) (res : List String) (hok : st.find S key (some L) = .ok res) :
    res.length ≤ L := by
  classical
  by_cases hL : L = 0
  · subst hL
    unfold TieredSegmentMap.find at hok
    rw [if_pos rfl] at hok
    injection hok with h
    rw [← h]
    simp
  · rw [tieredFind_some_pos_eq S st key L (by omega)] at hok
    cases hdisk : findDiskGo S key st.disk (findMemGo S key st.memory (some L)).2 with
    | error e => rw [hdisk] at hok; exact absurd hok (by simp)
    | ok dp =>
      rw [hdisk] at hok
      dsimp only at hok
      injection hok with h
      rw [← h, List.length_take]
      omega

/-- Per-partition key loop bound: starting from accumulator `acc` and
limit `some v`, the accumulator grows by at most `v`, and the limit left
behind for the next partition is some `w ≤ v` (the `break` branch leaves
the *old* value `v` behind). -/
theorem searchKeysGo_bound (S : SnappyImpl) (seg : TieredSegmentMap)
    (keys : List String) :
    ∀ (acc out : List String) (v : Nat) (lim : Option Nat),
    searchKeysGo S seg keys acc (some v) = .ok (out, lim) →
    out.length ≤ acc.length + v ∧ ∃ w, lim = some w ∧ w ≤ v := by
  induction keys with
  | nil =>
    intro acc out v lim h
    unfold searchKeysGo at h
    injection h with h
    have h1 := congrArg Prod.fst h
    have h2 := congrArg Prod.snd h
    dsimp at h1 h2
    subst h1
    exact ⟨by omega, v, h2.symm, le_refl v⟩
  | cons key keys ih =>
    intro acc out v lim h
    unfold searchKeysGo at h
    cases hf : seg.find S key (some v) with
    | error e => rw [hf] at h; exact absurd h (by simp)
    | ok found =>
      rw [hf] at h
      dsimp only at h
      have hfl : found.length ≤ v := tieredFind_length_le S seg key v found hf
      by_cases hleft : 0 < v - (acc ++ found).length
      · rw [if_pos hleft] at h
        obtain ⟨h1, w, hw1, hw2⟩ := ih (acc ++ found) out (v - (acc ++ found).length) lim h
        refine ⟨?_, w, hw1, by omega⟩
        have hlen : (acc ++ found).length = acc.length + found.length := by simp
        omega
      · rw [if_neg hleft] at h
        injection h with h
        have h1 := congrArg Prod.fst h
        have h2 := congrArg Prod.snd h
        dsimp at h1 h2
        subst h1
        refine ⟨?_, v, h2.symm, le_refl v⟩
        have hlen : (acc ++ found).length = acc.length + found.length := by simp
        omega

/-- Partition loop bound: with a running limit `some v`, `v ≤ L`, each
partition adds at most `L` values, so the total growth is bounded by
`L · (number of partitions)`. -/
theorem searchPartGo_bound (S : SnappyImpl) (enc : String → String)
    (root : String → List (String × DiskFiles)) (L : Nat)
    (parts : List (String × List String)) :
    ∀ (acc res : List String) (v : Nat),
    v ≤ L → searchPartGo S enc root parts acc (some v) = .ok res →
    res.length ≤ acc.length + parts.length * L := by
  induction parts with
  | nil =>
    intro acc res v _ h
    unfold searchPartGo at h
    injection h with h
    subst h
    simp
  | cons part rest ih =>
    obtain ⟨partition, keys⟩ := part
    intro acc res v hv h
    unfold searchPartGo at h
    cases hn : TieredSegmentMap.new (root (enc partition)) with
    | error e => rw [hn] at h; exact absurd h (by simp)
    | ok segments =>
      rw [hn] at h
      dsimp only at h
      cases hk : searchKeysGo S segments keys acc (some v) with
      | error e => rw [hk] at h; exact absurd h (by simp)
      | ok r =>
        rw [hk] at h
        dsimp only at h
        obtain ⟨r1, r2⟩ := r
        obtain ⟨h1, w, hw1, hw2⟩ := searchKeysGo_bound S segments keys acc r1 v r2 hk
        subst hw1
        have hres := ih r1 res w (by omega) h
        have hmul : (rest.length + 1) * L = rest.length * L + L := by ring
        simp only [List.length_cons]
        omega

/-! ### Byte-layout lemmas for the disk writer

These let the reader's random accesses into the large generated files be
resolved symbolically, record by record. -/

theorem beBytes_length (w v : Nat) : (beBytes w v).length = w := by
  simp [beBytes]

theorem flatten_map_length_const (f : α → List Nat) (w : Nat) :
    ∀ l : List α, (∀ x ∈ l, (f x).length = w) →
      ((l.map f).flatten).length = w * l.length := by
  intro l
  induction l with
  | nil => simp
  | cons a rest ih =>
    intro h
    simp only [List.map_cons, List.flatten_cons, List.length_append, List.length_cons]
    rw [h a (by simp), ih (fun x hx => h x (by simp [hx]))]
    ring

theorem flatten_map_drop (f : α → List Nat) (w : Nat) :
    ∀ (l : List α) (i : Nat), (∀ x ∈ l, (f x).length = w) → i ≤ l.length →
      ((l.map f).flatten).drop (w * i) = ((l.drop i).map f).flatten := by
  intro l
  induction l with
  | nil =>
    intro i _ hi
    simp only [List.length_nil, Nat.le_zero] at hi
    subst hi
    simp
  | cons a rest ih =>
    intro i h hi
    cases i with
    | zero => simp
    | succ j =>
      simp only [List.map_cons, List.flatten_cons, List.drop_succ_cons]
      have ha : (f a).length = w := h a (by simp)
      rw [show w * (j + 1) = (f a).length + w * j by rw [ha]; ring, List.drop_append,
        ih j (fun x hx => h x (by simp [hx])) (by simpa using hi)]

/-- The `i`-th 8-byte record of `entries.bin` starts with the key index. -/
theorem entriesBin_readU32_key (E : List (Nat × Nat)) (i : Nat) (hi : i < E.length) :
    readU32 ((E.map (fun p => beBytes 4 p.1 ++ beBytes 4 p.2)).flatten) (i * 8) =
      some (beVal (beBytes 4 (E.get ⟨i, hi⟩).1)) := by
  have hw : ∀ p ∈ E, ((fun p : Nat × Nat => beBytes 4 p.1 ++ beBytes 4 p.2) p).length = 8 := by
    intro p _
    simp [beBytes_length]
  have hlen := flatten_map_length_const _ 8 E hw
  have hdrop := flatten_map_drop _ 8 E i hw (by omega)
  unfold readU32 readBytes
  rw [if_pos (by rw [hlen]; omega)]
  rw [show i * 8 = 8 * i by ring, hdrop, List.drop_eq_getElem_cons hi, List.map_cons,
    List.flatten_cons, List.append_assoc, List.take_left' (beBytes_length 4 _)]
  rfl

/-- ... and carries the value index in its second 4 bytes. -/
theorem entriesBin_readU32_val (E : List (Nat × Nat)) (i : Nat) (hi : i < E.length) :
    readU32 ((E.map (fun p => beBytes 4 p.1 ++ beBytes 4 p.2)).flatten) (i * 8 + 4) =
      some (beVal (beBytes 4 (E.get ⟨i, hi⟩).2)) := by
  have hw : ∀ p ∈ E, ((fun p : Nat × Nat => beBytes 4 p.1 ++ beBytes 4 p.2) p).length = 8 := by
    intro p _
    simp [beBytes_length]
  have hlen := flatten_map_length_const _ 8 E hw
  have hdrop := flatten_map_drop _ 8 E i hw (by omega)
  unfold readU32 readBytes
  rw [if_pos (by rw [hlen]; omega)]
  rw [show i * 8 + 4 = 8 * i + 4 by ring, (List.drop_drop 4 (8 * i) _).symm, hdrop,
    List.drop_eq_getElem_cons hi, List.map_cons, List.flatten_cons]
  rw [List.append_assoc, List.drop_left' (beBytes_length 4 _),
    List.take_left' (beBytes_length 4 _)]
  rfl

theorem writeFullTableAux_fst : ∀ (l : List Entry) (pos : Nat),
    (writeFullTableAux pos l).1 = (l.map entryRecordBytes).flatten := by
  intro l
  induction l with
  | nil => intro pos; rfl
  | cons e rest ih =>
    intro pos
    simp only [writeFullTableAux, List.map_cons, List.flatten_cons]
    rw [ih]

theorem writeFullTableAux_snd_length : ∀ (l : List Entry) (pos : Nat),
    (writeFullTableAux pos l).2.length = l.length := by
  intro l
  induction l with
  | nil => intro pos; rfl
  | cons e rest ih =>
    intro pos
    simp only [writeFullTableAux, List.length_cons]
    rw [ih]

theorem writeFullTableAux_snd_cons (e : Entry) (rest : List Entry) (pos : Nat) :
    (writeFullTableAux pos (e :: rest)).2 =
      pos :: (writeFullTableAux (pos + (entryRecordBytes e).length) rest).2 := by
  simp [writeFullTableAux]

/-! ### The C3 scenario

One insert large enough to spill to the disk tier (4097 distinct values),
followed by one small insert that stays in the memory tier, under the same
key.  The filler values are two-character ASCII strings, strictly
increasing with their index, so the generated tables are already sorted. -/

theorem charOfNat_toNat {n : Nat} (h : n < 55296) : (Char.ofNat n).toNat = n := by
  unfold Char.ofNat
  rw [dif_pos (Or.inl h : Nat.isValidChar n)]
  unfold Char.ofNatAux Char.toNat
  simp [UInt32.toNat, UInt32.ofNat', Nat.mod_eq_of_lt (by omega : n < 4294967296)]

/-- The `j`-th filler value: two characters over the 64-character alphabet
starting at `'0'`. -/
def fillVal (j : Nat) : String :=
  ⟨[Char.ofNat (48 + j / 64), Char.ofNat (48 + j % 64)]⟩

theorem strPoints_fillVal {j : Nat} (h : j < 4096) :
    strPoints (fillVal j) = [48 + j / 64, 48 + j % 64] := by
  have h1 : 48 + j / 64 < 55296 := by omega
  have h2 : 48 + j % 64 < 55296 := by omega
  simp [strPoints, fillVal, charOfNat_toNat h1, charOfNat_toNat h2]

theorem strBytes_fillVal {j : Nat} (h : j < 4096) :
    strBytes (fillVal j) = [48 + j / 64, 48 + j % 64] := by
  have h1 : 48 + j / 64 < 55296 := by omega
  have h2 : 48 + j % 64 < 55296 := by omega
  have hb1 : utf8Bytes (Char.ofNat (48 + j / 64)) = [48 + j / 64] := by
    unfold utf8Bytes
    rw [charOfNat_toNat h1, if_pos (by omega)]
  have hb2 : utf8Bytes (Char.ofNat (48 + j % 64)) = [48 + j % 64] := by
    unfold utf8Bytes
    rw [charOfNat_toNat h2, if_pos (by omega)]
  simp [strBytes, fillVal, hb1, hb2]

theorem cmpStr_fillVal_lt {a b : Nat} (ha : a < 4096) (hb : b < 4096) (hab : a < b) :
    cmpStr (fillVal a) (fillVal b) = .lt := by
  unfold cmpStr
  rw [strPoints_fillVal ha, strPoints_fillVal hb]
  have hcase : a / 64 < b / 64 ∨ (a / 64 = b / 64 ∧ a % 64 < b % 64) := by omega
  rcases hcase with hdiv | ⟨hdiv, hmod⟩
  · unfold cmpN
    rw [if_pos (by omega)]
  · unfold cmpN
    rw [if_neg (by omega), if_neg (by omega)]
    unfold cmpN
    rw [if_pos (by omega)]

theorem cmpStr_bang_fillVal {j : Nat} (h : j < 4096) :
    cmpStr "!" (fillVal j) = .lt := by
  unfold cmpStr
  rw [strPoints_fillVal h]
  have : strPoints "!" = [33] := by decide
  rw [this]
  unfold cmpN
  rw [if_pos (by omega)]

theorem fillVal_ne_bang {j : Nat} (h : j < 4096) : fillVal j ≠ "!" := by
  intro he
  have := cmpStr_bang_fillVal h
  rw [he] at this
  rw [cmpStr_refl] at this
  cases this

theorem fillVal_inj {a b : Nat} (ha : a < 4096) (hb : b < 4096)
    (h : fillVal a = fillVal b) : a = b := by
  by_contra hne
  rcases Nat.lt_or_ge a b with hlt | hge
  · have := cmpStr_fillVal_lt ha hb hlt
    rw [h, cmpStr_refl] at this
    cases this
  · have hlt : b < a := by omega
    have := cmpStr_fillVal_lt hb ha hlt
    rw [h, cmpStr_refl] at this
    cases this

theorem entryNew_fillVal {j : Nat} (h : j < 4096) :
    Entry.new rleSnappy (fillVal j) = .Uncompressed (fillVal j) := by
  have hsb := strBytes_fillVal h
  have hlen : strLen (fillVal j) = 2 := by
    unfold strLen
    rw [hsb]
    rfl
  have hcomp : (rleSnappy.compress (fillVal j)).length = 2 ∨
      (rleSnappy.compress (fillVal j)).length = 4 := by
    show (rleCompress (fillVal j)).length = 2 ∨ (rleCompress (fillVal j)).length = 4
    unfold rleCompress
    rw [hsb]
    by_cases hxy : 48 + j / 64 = 48 + j % 64
    · left
      simp [List.foldl, rlePush, hxy]
    · right
      simp [List.foldl, rlePush, hxy]
  unfold Entry.new
  rw [if_neg]
  rw [hlen]
  omega

theorem asUncompressed_fillVal (j : Nat) :
    (Entry.Uncompressed (fillVal j)).asUncompressed rleSnappy = fillVal j := rfl

/-- `binary_search_by` over a table whose decoded strings are strictly
increasing resolves a probe string to exactly the index holding it. -/
theorem tableSearch_strict (S : SnappyImpl) (table : List Entry) (dec : Nat → String)
    (hdec : ∀ (i : Nat) (h : i < table.length), (table[i]).asUncompressed S = dec i)
    (hmono : ∀ i j : Nat, i < j → j < table.length → cmpStr (dec i) (dec j) = .lt)
    (t : String) (j : Nat) (hj : j < table.length) (hjt : dec j = t) :
    tableSearch S table t = .ok j := by
  unfold tableSearch
  refine rustBinarySearch_found_unique _ table ?_ ?_ j hj ?_
  · intro i j2 hi hj2 hij
    rw [hdec i hi, hdec j2 hj2]
    have hlt := hmono i j2 hij hj2
    constructor
    · intro h2
      exact cmpStr_lt_trans hlt h2
    · intro h2
      have ht1 : cmpStr t (dec i) = .lt := by
        rw [cmpStr_swap, h2]
        rfl
      have ht2 : cmpStr t (dec j2) = .lt := cmpStr_lt_trans ht1 hlt
      rw [cmpStr_swap t (dec j2), ht2]
      rfl
  · intro i j2 hi hj2 hei hej
    rw [hdec i hi] at hei
    rw [hdec j2 hj2] at hej
    have h1 : dec i = t := cmpStr_eq_iff.mp hei
    have h2 : dec j2 = t := cmpStr_eq_iff.mp hej
    by_contra hne
    rcases Nat.lt_or_ge i j2 with hlt | hge
    · have := hmono i j2 hlt hj2
      rw [h1, h2, cmpStr_refl] at this
      cases this
    · have hlt : j2 < i := by omega
      have := hmono j2 i hlt hi
      rw [h1, h2, cmpStr_refl] at this
      cases this
  · rw [hdec j hj, hjt, cmpStr_refl]

/-- The 4097 distinct values of the spilling insert, in ascending order. -/
def bigVals : List String := "!" :: (List.range 4096).map fillVal

/-- Its value table: every value stays uncompressed under `rleSnappy`. -/
def bigVT : List Entry := bigVals.map .Uncompressed

/-- Closed form of the value at index `i` of `bigVals`. -/
def decF (i : Nat) : String := if i = 0 then "!" else fillVal (i - 1)

theorem bigVals_length : bigVals.length = 4097 := by simp [bigVals]

theorem bigVals_get (i : Nat) (h : i < bigVals.length) : bigVals[i] = decF i := by
  cases i with
  | zero => rfl
  | succ k =>
    have hk : k < 4096 := by
      rw [bigVals_length] at h
      omega
    simp [bigVals, decF]

theorem decF_lt {i j : Nat} (hij : i < j) (hj : j < 4097) :
    cmpStr (decF i) (decF j) = .lt := by
  unfold decF
  cases i with
  | zero =>
    rw [if_pos rfl, if_neg (by omega)]
    exact cmpStr_bang_fillVal (by omega)
  | succ k =>
    rw [if_neg (by omega), if_neg (by omega)]
    have h1 : k + 1 - 1 = k := by omega
    rw [h1]
    exact cmpStr_fillVal_lt (by omega) (by omega) (by omega)

theorem bigVT_length : bigVT.length = 4097 := by
  rw [bigVT, List.length_map, bigVals_length]

theorem bigVT_get_dec (i : Nat) (h : i < bigVT.length) :
    (bigVT[i]).asUncompressed rleSnappy = decF i := by
  have hv : i < bigVals.length := by
    rw [bigVals_length]
    rw [bigVT_length] at h
    exact h
  have he : bigVT = bigVals.map Entry.Uncompressed := rfl
  rw [List.getElem_of_eq he h, List.getElem_map, bigVals_get i hv]
  rfl

theorem tableSearch_bigVT (t : String) (j : Nat) (hj : j < 4097) (hjt : decF j = t) :
    tableSearch rleSnappy bigVT t = .ok j := by
  refine tableSearch_strict rleSnappy bigVT decF bigVT_get_dec ?_ t j ?_ hjt
  · intro i j2 hij hj2
    rw [bigVT_length] at hj2
    exact decF_lt hij hj2
  · rw [bigVT_length]
    exact hj

theorem decF_ne {i j : Nat} (hij : i ≠ j) (hi : i < 4097) (hj : j < 4097) :
    decF i ≠ decF j := by
  intro he
  rcases Nat.lt_or_ge i j with hlt | hge
  · have := decF_lt hlt hj
    rw [he, cmpStr_refl] at this
    cases this
  · have hlt : j < i := by omega
    have := decF_lt hlt hi
    rw [he, cmpStr_refl] at this
    cases this

theorem bigVals_nodup : bigVals.Nodup := by
  unfold List.Nodup
  rw [List.pairwise_iff_getElem]
  intro i j hi hj hij
  rw [bigVals_get i hi, bigVals_get j hj]
  refine decF_ne (by omega) ?_ ?_
  · rw [bigVals_length] at hi
    exact hi
  · rw [bigVals_length] at hj
    exact hj

theorem bigVT_sorted : List.Sorted (entryLe rleSnappy) bigVT := by
  unfold List.Sorted
  rw [List.pairwise_iff_getElem]
  intro i j hi hj hij
  show entryLe rleSnappy (bigVT[i]) (bigVT[j])
  unfold entryLe
  rw [bigVT_get_dec i hi, bigVT_get_dec j hj]
  refine strLt_asymm (decF_lt hij ?_)
  rw [bigVT_length] at hj
  exact hj

/-- The spilling input mapping: key `"k"` with the single value `"!"` and
key `"n"` with the 4096 filler values. -/
def bigInput : List (String × List String) :=
  [("k", ["!"]), ("n", (List.range 4096).map fillVal)]

theorem toKVS_bigInput :
    toKeysValuesSets rleSnappy bigInput =
      ([.Uncompressed "k", .Uncompressed "n"], bigVT) := by
  unfold toKeysValuesSets
  dsimp only
  have hkeys : bigInput.map (fun kv => Entry.new rleSnappy kv.1) =
      [Entry.new rleSnappy "k", Entry.new rleSnappy "n"] := rfl
  have hkeys2 : List.insertionSort (entryLe rleSnappy)
      [Entry.new rleSnappy "k", Entry.new rleSnappy "n"] =
      [.Uncompressed "k", .Uncompressed "n"] := by decide
  have hflat : bigInput.flatMap (fun kv => kv.2) = bigVals := by
    simp only [bigInput, bigVals, List.flatMap_cons, List.flatMap_nil, List.append_nil,
      List.cons_append, List.nil_append]
  have hmap : bigVals.map (Entry.new rleSnappy) = bigVT := by
    show Entry.new rleSnappy "!" ::
      ((List.range 4096).map fillVal).map (Entry.new rleSnappy) =
      Entry.Uncompressed "!" :: ((List.range 4096).map fillVal).map Entry.Uncompressed
    rw [show Entry.new rleSnappy "!" = .Uncompressed "!" from by decide]
    rw [List.map_map, List.map_map]
    refine congrArg _ (List.map_congr_left ?_)
    intro j hj
    rw [List.mem_range] at hj
    show Entry.new rleSnappy (fillVal j) = Entry.Uncompressed (fillVal j)
    exact entryNew_fillVal hj
  rw [hkeys, hkeys2, hflat, bigVals_nodup.dedup, hmap, bigVT_sorted.insertionSort_eq]

/-- The entry table of the spilling insert: key `"k"` (index 0) maps to
value index 0, key `"n"` (index 1) to value indices 1..4096 in order. -/
def bigE : List (Nat × Nat) := (0, 0) :: (List.range 4096).map (fun j => (1, j + 1))

theorem bigE_length : bigE.length = 4097 := by simp [bigE]

theorem bigE_get (i : Nat) (h : i < bigE.length) :
    bigE[i] = if i = 0 then (0, 0) else (1, i) := by
  cases i with
  | zero => rfl
  | succ k =>
    have hk : k < 4096 := by
      rw [bigE_length] at h
      omega
    simp [bigE]

theorem bigE_sorted : List.Sorted entryKeyLe bigE := by
  unfold List.Sorted
  rw [List.pairwise_iff_getElem]
  intro i j hi hj hij
  show entryKeyLe (bigE[i]) (bigE[j])
  rw [bigE_get i hi, bigE_get j hj]
  unfold entryKeyLe
  by_cases hi0 : i = 0
  · rw [if_pos hi0, if_neg (by omega)]
    omega
  · rw [if_neg hi0, if_neg (by omega)]

theorem bigE_chain : bigE.Chain' (· ≠ ·) := by
  refine List.Pairwise.chain' ?_
  rw [List.pairwise_iff_getElem]
  intro i j hi hj hij
  rw [bigE_get i hi, bigE_get j hj]
  by_cases hi0 : i = 0
  · rw [if_pos hi0, if_neg (by omega)]
    intro hc
    cases hc
  · rw [if_neg hi0, if_neg (by omega)]
    intro hc
    have := congrArg Prod.snd hc
    dsimp at this
    omega

theorem bigE_eq : bigInput.flatMap (fun kv =>
    kv.2.map (fun v =>
      (unwrapIdx (tableSearch rleSnappy [.Uncompressed "k", .Uncompressed "n"] kv.1),
       unwrapIdx (tableSearch rleSnappy bigVT v)))) = bigE := by
  simp only [bigInput, List.flatMap_cons, List.flatMap_nil, List.append_nil,
    List.map_cons, List.map_nil, List.cons_append, List.nil_append, List.map_map]
  rw [show tableSearch rleSnappy [Entry.Uncompressed "k", Entry.Uncompressed "n"] "k" =
    .ok 0 from by decide]
  rw [show tableSearch rleSnappy [Entry.Uncompressed "k", Entry.Uncompressed "n"] "n" =
    .ok 1 from by decide]
  rw [tableSearch_bigVT "!" 0 (by omega) rfl]
  refine congrArg₂ List.cons rfl ?_
  refine List.map_congr_left ?_
  intro j hj
  rw [List.mem_range] at hj
  show (unwrapIdx (Except.ok 1),
    unwrapIdx (tableSearch rleSnappy bigVT (fillVal j))) = (1, j + 1)
  rw [tableSearch_bigVT (fillVal j) (j + 1) (by omega) (by simp [decF])]
  rfl

/-- The cached segment the spilling insert builds. -/
def bigSeg : CachedSegment :=
  { keys := [.Uncompressed "k", .Uncompressed "n"]
    values := bigVT
    entries := bigE
    bloomKeys := ["k", "n"] }

theorem bigSeg_new : CachedSegment.new? rleSnappy bigInput = some bigSeg := by
  unfold CachedSegment.new?
  rw [if_neg (by decide)]
  rw [toKVS_bigInput]
  dsimp only
  rw [bigE_eq, bigE_sorted.insertionSort_eq, List.destutter_of_chain' _ _ bigE_chain]
  have hne : ((List.range 4096).map fillVal).isEmpty = false := by
    rw [show (4096 : Nat) = 4095 + 1 from rfl, List.range_succ_eq_map]
    rfl
  have hbloom : (bigInput.filter (fun kv => ¬ kv.2.isEmpty)).map (fun kv => kv.1) =
      ["k", "n"] := by
    simp [bigInput, hne]
  rw [hbloom]
  rfl

/-- The disk segment the spilling insert flushes. -/
def bigDF : DiskFiles := flushMemorySegment bigSeg

theorem bigDF_bloomKeys : bigDF.bloomKeys = ["k", "n"] := rfl

theorem bigDF_keysData : bigDF.keysData = [0, 0, 0, 1, 107, 0, 0, 0, 1, 110] := by decide

theorem bigDF_keysLookup :
    bigDF.keysLookup = [0, 0, 0, 0, 0, 0, 0, 0, 0, 0, 0, 0, 0, 0, 0, 5] := by decide

theorem bigDF_entriesBin :
    bigDF.entriesBin = (bigE.map (fun p => beBytes 4 p.1 ++ beBytes 4 p.2)).flatten := rfl

theorem bigDF_valuesData : bigDF.valuesData = (bigVT.map entryRecordBytes).flatten := by
  unfold bigDF flushMemorySegment
  dsimp only
  rw [show bigSeg.values = bigVT from rfl, writeFullTableAux_fst]

theorem bigDF_valuesLookup :
    bigDF.valuesLookup = writeLookupTable (writeFullTableAux 0 bigVT).2 := by
  unfold bigDF flushMemorySegment
  dsimp only
  rw [show bigSeg.values = bigVT from rfl]

theorem bigDF_entriesBin_length : bigDF.entriesBin.length = 32776 := by
  rw [bigDF_entriesBin, flatten_map_length_const _ 8 bigE (by
    intro p _
    simp [beBytes_length]), bigE_length]

theorem bigDF_valuesLookup_length : bigDF.valuesLookup.length = 32776 := by
  rw [bigDF_valuesLookup]
  unfold writeLookupTable
  rw [flatten_map_length_const _ 8 _ (by
    intro x _
    exact beBytes_length 8 x), writeFullTableAux_snd_length, bigVT_length]

/-- The key index stored in record `i` of the generated `entries.bin`. -/
theorem bigEB_key (i : Nat) (hi : i < 4097) (hne : i ≠ 0) :
    readU32 bigDF.entriesBin (i * 8) = some 1 := by
  rw [bigDF_entriesBin]
  have hi2 : i < bigE.length := by
    rw [bigE_length]
    exact hi
  rw [entriesBin_readU32_key bigE i hi2]
  have hg : bigE.get ⟨i, hi2⟩ = (1, i) := by
    rw [List.get_eq_getElem, bigE_get i hi2, if_neg hne]
  rw [hg]
  dsimp only
  rfl

theorem bigEB_key0 : readU32 bigDF.entriesBin (0 * 8) = some 0 := by
  rw [bigDF_entriesBin]
  have hi2 : 0 < bigE.length := by
    rw [bigE_length]
    omega
  rw [entriesBin_readU32_key bigE 0 hi2]
  have hg : bigE.get ⟨0, hi2⟩ = (0, 0) := by
    rw [List.get_eq_getElem, bigE_get 0 hi2, if_pos rfl]
  rw [hg]
  dsimp only
  rfl

theorem bigEB_val0 : readU32 bigDF.entriesBin (0 * 8 + 4) = some 0 := by
  rw [bigDF_entriesBin]
  have hi2 : 0 < bigE.length := by
    rw [bigE_length]
    omega
  rw [entriesBin_readU32_val bigE 0 hi2]
  have hg : bigE.get ⟨0, hi2⟩ = (0, 0) := by
    rw [List.get_eq_getElem, bigE_get 0 hi2, if_pos rfl]
  rw [hg]
  dsimp only
  rfl

/-- `values.lookup.bin` starts with offset 0. -/
theorem bigVL_read0 : readU64 bigDF.valuesLookup 0 = some 0 := by
  rw [bigDF_valuesLookup]
  have hcons : (writeFullTableAux 0 bigVT).2 =
      0 :: (writeFullTableAux (0 + (entryRecordBytes (.Uncompressed "!")).length)
        ((List.range 4096).map (fun j => Entry.Uncompressed (fillVal j)))).2 := by
    have hv : bigVT = Entry.Uncompressed "!" ::
        (List.range 4096).map (fun j => Entry.Uncompressed (fillVal j)) := by
      show bigVals.map Entry.Uncompressed = _
      rw [bigVals, List.map_cons, List.map_map]
      rfl
    rw [hv]
    exact writeFullTableAux_snd_cons _ _ 0
  rw [hcons]
  unfold writeLookupTable readU64 readBytes
  rw [List.map_cons, List.flatten_cons]
  rw [if_pos (by
    rw [List.length_append, beBytes_length]
    omega)]
  rw [List.drop_zero, List.take_left' (beBytes_length 8 0)]
  rfl

/-- `read_entry_within` through its two reads, on the uncompressed path. -/
theorem readEntryWithin_of_reads (S : SnappyImpl) (data : List Nat) (offset lf : Nat)
    (h1 : readU32 data offset = some lf)
    (h2 : Nat.testBit lf 31 = false)
    (buf : List Nat) (h3 : readBytes data (offset + 4) (lf % 2 ^ 31) = some buf)
    (s : String) (h4 : strOfBytes buf = some s) :
    readEntryWithin S data offset = .ok s := by
  unfold readEntryWithin
  rw [h1]
  dsimp only
  rw [h3]
  dsimp only
  rw [h2]
  rw [if_neg (by simp)]
  rw [h4]

/-- The first record of `values.data.bin` decodes to `"!"`. -/
theorem bigVD_read0 : readEntryWithin rleSnappy bigDF.valuesData 0 = .ok "!" := by
  rw [bigDF_valuesData]
  have hv : bigVT.map entryRecordBytes = [0, 0, 0, 1, 33] ::
      ((List.range 4096).map (fun j => Entry.Uncompressed (fillVal j))).map entryRecordBytes := by
    have hv2 : bigVT = Entry.Uncompressed "!" ::
        (List.range 4096).map (fun j => Entry.Uncompressed (fillVal j)) := by
      show bigVals.map Entry.Uncompressed = _
      rw [bigVals, List.map_cons, List.map_map]
      rfl
    rw [hv2, List.map_cons]
    rfl
  rw [hv, List.flatten_cons]
  refine readEntryWithin_of_reads rleSnappy _ 0 1 ?_ (by decide) [33] ?_ "!" (by decide)
  · unfold readU32 readBytes
    rw [if_pos (by
      rw [List.length_append]
      have h5 : ([0, 0, 0, 1, 33] : List Nat).length = 5 := rfl
      omega)]
    rfl
  · unfold readBytes
    rw [if_pos (by
      rw [List.length_append]
      have h5 : ([0, 0, 0, 1, 33] : List Nat).length = 5 := rfl
      omega)]
    rfl

/-- Value index 0 resolves to `"!"` through lookup and data files. -/
theorem bigGetValue0 :
    getValueUnder rleSnappy bigDF.valuesData bigDF.valuesLookup 0 = .ok "!" := by
  unfold getValueUnder
  rw [if_neg (by
    rw [bigDF_valuesLookup_length]
    omega)]
  rw [show (0 : Nat) * 8 = 0 from rfl, bigVL_read0]
  exact bigVD_read0

/-- One `Less` step of the entries binary-search loop. -/
theorem resolveGo_step_lt (S : SnappyImpl) (vd vl ef : List Nat) (key size fuel step offset
    idx offset2 : Nat)
    (h1 : readU32 ef (offset * 8) = some idx) (h2 : cmpNat key idx = .lt)
    (h3 : (offset + 2 ^ 32 - max (size / 2 ^ step) 1) % 2 ^ 32 = offset2) :
    resolveEntriesGo S vd vl ef key size (fuel + 1) step offset =
      resolveEntriesGo S vd vl ef key size fuel (step + 1) offset2 := by
  conv_lhs => unfold resolveEntriesGo
  rw [h1]
  dsimp only
  rw [h2]
  dsimp only
  rw [h3]

/-- The `Equal` step: back up, then read sequentially. -/
theorem resolveGo_step_eq (S : SnappyImpl) (vd vl ef : List Nat) (key size fuel step offset
    idx start : Nat)
    (h1 : readU32 ef (offset * 8) = some idx) (h2 : cmpNat key idx = .eq)
    (h3 : entriesBackward ef key offset = .ok start) :
    resolveEntriesGo S vd vl ef key size (fuel + 1) step offset =
      readSequential S vd vl ef key (ef.length + 1) (start * 8) := by
  conv_lhs => unfold resolveEntriesGo
  rw [h1]
  dsimp only
  rw [h2]
  dsimp only
  rw [h3]

/-- One collecting step of `read_sequential`. -/
theorem readSeq_cons (S : SnappyImpl) (vd vl ef : List Nat) (key fuel pos vi : Nat) (s : String)
    (h1 : readU32 ef pos = some key)
    (h2 : readU32 ef (pos + 4) = some vi)
    (h3 : getValueUnder S vd vl vi = .ok s) :
    readSequential S vd vl ef key (fuel + 1) pos =
      (readSequential S vd vl ef key fuel (pos + 8)).map (s :: ·) := by
  conv_lhs => unfold readSequential
  rw [h1]
  dsimp only
  rw [if_neg (by simp), h2]
  dsimp only
  rw [h3]

/-- The stopping step of `read_sequential`: a different key index. -/
theorem readSeq_stop (S : SnappyImpl) (vd vl ef : List Nat) (key fuel pos idx : Nat)
    (h1 : readU32 ef pos = some idx) (h2 : idx ≠ key) :
    readSequential S vd vl ef key (fuel + 1) pos = .ok [] := by
  conv_lhs => unfold readSequential
  rw [h1]
  dsimp only
  rw [if_pos (by simpa using h2)]

/-- The entries resolution for key index 0 walks the staircase
2048, 1024, ..., 2, 1, 0 and collects exactly `"!"`. -/
theorem bigResolve :
    resolveEntriesWithKey rleSnappy bigDF.valuesData bigDF.valuesLookup bigDF.entriesBin 0 =
      .ok ["!"] := by
  have hlt : cmpNat 0 1 = Ordering.lt := by decide
  have hk0 : readU32 bigDF.entriesBin 0 = some 0 := by
    have := bigEB_key0
    rwa [show (0 : Nat) * 8 = 0 from rfl] at this
  have hv0 : readU32 bigDF.entriesBin (0 + 4) = some 0 := by
    have := bigEB_val0
    rwa [show (0 : Nat) * 8 + 4 = 0 + 4 from rfl] at this
  have hk8 : readU32 bigDF.entriesBin (0 + 8) = some 1 := by
    have := bigEB_key 1 (by omega) (by omega)
    rwa [show (1 : Nat) * 8 = 0 + 8 from rfl] at this
  unfold resolveEntriesWithKey
  rw [bigDF_entriesBin_length]
  rw [if_neg (by decide), if_neg (by decide)]
  dsimp only
  rw [show (32776 : Nat) / 8 = 4097 from by decide]
  rw [show ilog2N 32776 + 1 - 2 = 14 from by decide]
  rw [show (4097 : Nat) / 2 = 2048 from by decide]
  rw [resolveGo_step_lt _ _ _ _ _ _ _ _ _ 1 1024
    (bigEB_key 2048 (by omega) (by omega)) hlt (by decide)]
  rw [resolveGo_step_lt _ _ _ _ _ _ _ _ _ 1 512
    (bigEB_key 1024 (by omega) (by omega)) hlt (by decide)]
  rw [resolveGo_step_lt _ _ _ _ _ _ _ _ _ 1 256
    (bigEB_key 512 (by omega) (by omega)) hlt (by decide)]
  rw [resolveGo_step_lt _ _ _ _ _ _ _ _ _ 1 128
    (bigEB_key 256 (by omega) (by omega)) hlt (by decide)]
  rw [resolveGo_step_lt _ _ _ _ _ _ _ _ _ 1 64
    (bigEB_key 128 (by omega) (by omega)) hlt (by decide)]
  rw [resolveGo_step_lt _ _ _ _ _ _ _ _ _ 1 32
    (bigEB_key 64 (by omega) (by omega)) hlt (by decide)]
  rw [resolveGo_step_lt _ _ _ _ _ _ _ _ _ 1 16
    (bigEB_key 32 (by omega) (by omega)) hlt (by decide)]
  rw [resolveGo_step_lt _ _ _ _ _ _ _ _ _ 1 8
    (bigEB_key 16 (by omega) (by omega)) hlt (by decide)]
  rw [resolveGo_step_lt _ _ _ _ _ _ _ _ _ 1 4
    (bigEB_key 8 (by omega) (by omega)) hlt (by decide)]
  rw [resolveGo_step_lt _ _ _ _ _ _ _ _ _ 1 2
    (bigEB_key 4 (by omega) (by omega)) hlt (by decide)]
  rw [resolveGo_step_lt _ _ _ _ _ _ _ _ _ 1 1
    (bigEB_key 2 (by omega) (by omega)) hlt (by decide)]
  rw [resolveGo_step_lt _ _ _ _ _ _ _ _ _ 1 0
    (bigEB_key 1 (by omega) (by omega)) hlt (by decide)]
  rw [resolveGo_step_eq _ _ _ _ _ _ _ _ _ 0 0 bigEB_key0 (by decide) rfl]
  rw [bigDF_entriesBin_length]
  rw [show (0 : Nat) * 8 = 0 from rfl]
  rw [readSeq_cons _ _ _ _ _ _ _ 0 "!" hk0 hv0 bigGetValue0]
  rw [readSeq_stop _ _ _ _ _ _ _ 1 hk8 (by decide)]
  rfl

/-- The key `"k"` resolves to key index 0 in the flushed key table. -/
theorem bigMapToIndex :
    mapToIndex rleSnappy bigDF.keysData bigDF.keysLookup "k" = .ok (some 0) := by
  rw [bigDF_keysData, bigDF_keysLookup]
  decide

/-- The flushed disk segment finds `["!"]` under `"k"`. -/
theorem bigDF_find : bigDF.find rleSnappy "k" = .ok ["!"] := by
  unfold DiskFiles.find
  rw [if_pos (by
    rw [bigDF_bloomKeys]
    decide)]
  rw [bigMapToIndex]
  exact bigResolve

/-- The small second insert, under the same key. -/
def smallInput : List (String × List String) := [("k", ["q"])]

def segSmall : CachedSegment :=
  { keys := [.Uncompressed "k"], values := [.Uncompressed "q"], entries := [(0, 0)],
    bloomKeys := ["k"] }

/-- State after the spilling insert: one disk segment, no memory segments. -/
def st1 : TieredSegmentMap :=
  { counter := 1, memory := [], disk := [bigDF], listing := [("1-segment", bigDF)] }

/-- State after the second insert: the newer segment sits in the memory tier. -/
def st2 : TieredSegmentMap :=
  { counter := 1, memory := [segSmall], disk := [bigDF], listing := [("1-segment", bigDF)] }

theorem insert_big : TieredSegmentMap.insert rleSnappy ⟨0, [], [], []⟩ bigInput = some st1 := by
  unfold TieredSegmentMap.insert
  rw [bigSeg_new]
  dsimp only
  rw [if_pos (by
    rw [show bigSeg.values = bigVT from rfl, bigVT_length]
    omega)]
  unfold TieredSegmentMap.writeSegment
  dsimp only
  rw [show natToStr (0 + 1) ++ "-segment" = "1-segment" from by decide]
  rfl

theorem insert_small : TieredSegmentMap.insert rleSnappy st1 smallInput = some st2 := by
  unfold TieredSegmentMap.insert
  rw [show CachedSegment.new? rleSnappy smallInput = some segSmall from by decide]
  dsimp only
  rw [if_neg (by decide)]
  rfl

theorem st2_find : TieredSegmentMap.find rleSnappy st2 "k" none = .ok ["q", "!"] := by
  rw [tieredFind_none_eq]
  have hdisk : findDiskGo rleSnappy "k" st2.disk none = .ok (["!"], none) := by
    show findDiskGo rleSnappy "k" [bigDF] none = .ok (["!"], none)
    unfold findDiskGo
    rw [if_pos (by rfl)]
    rw [bigDF_find]
    dsimp only
    rfl
  rw [hdisk]
  dsimp only
  rw [show (st2.memory.map (fun sg => CachedSegment.find rleSnappy sg "k")).flatten =
    ["q"] from by decide]
  rfl

/-- Every element of a list survives `destutter (· ≠ ·)`: its first
occurrence cannot equal the last kept element, which is an earlier
element's value.  (Only multiplicities drop, never values.) -/
theorem mem_destutter'_ne {α : Type} [DecidableEq α] :
    ∀ (l : List α) (a x : α), x = a ∨ x ∈ l → x ∈ List.destutter' (· ≠ ·) a l := by
  intro l
  induction l with
  | nil =>
    intro a x h
    rcases h with h | h
    · subst h
      simp [List.destutter'_nil]
    · cases h
  | cons b t ih =>
    intro a x h
    have hdef : List.destutter' (· ≠ ·) a (b :: t) =
        if a ≠ b then a :: List.destutter' (· ≠ ·) b t
        else List.destutter' (· ≠ ·) a t := rfl
    rw [hdef]
    by_cases hab : a ≠ b
    · rw [if_pos hab]
      rcases h with h | h
      · subst h
        exact List.mem_cons_self _ _
      · rcases List.mem_cons.mp h with h | h
        · exact List.mem_cons_of_mem _ (ih b x (Or.inl h))
        · exact List.mem_cons_of_mem _ (ih b x (Or.inr h))
    · rw [if_neg hab]
      push_neg at hab
      rcases h with h | h
      · exact ih a x (Or.inl h)
      · rcases List.mem_cons.mp h with h | h
        · exact ih a x (Or.inl (h.trans hab.symm))
        · exact ih a x (Or.inr h)

theorem mem_destutter_ne {α : Type} [DecidableEq α] (l : List α) (x : α) :
    x ∈ l.destutter (· ≠ ·) ↔ x ∈ l := by
  constructor
  · intro h
    exact (l.destutter_sublist (· ≠ ·)).mem h
  · intro h
    cases l with
    | nil => cases h
    | cons a t =>
      rw [List.destutter_cons']
      rcases List.mem_cons.mp h with h | h
      · exact mem_destutter'_ne t a x (Or.inl h)
      · exact mem_destutter'_ne t a x (Or.inr h)

/-! ### Claim theorems -/

/-- C1 (counterexample): building a segment from `{"k" ↦ ["v2", "v1"]}` and
querying `"k"` returns `["v2", "v1"]` — occurrence order, not the sorted
deduplicated list `["v1", "v2"]` the claim requires. -/
theorem claim_C1_counterexample :
    (CachedSegment.new? rleSnappy [("k", ["v2", "v1"])]).map
      (fun seg => CachedSegment.find rleSnappy seg "k") = some ["v2", "v1"] ∧
    (["v2", "v1"] : List String) ≠ List.insertionSort strLe (["v2", "v1"].dedup) := by
  decide

/-- C1 (amended): for a mapping with distinct keys and non-empty value
lists, `find(k)` returns a list whose elements are exactly the distinct
values of `M[k]`, with at least one copy of each and no more copies than
`M[k]` holds — not `sort(dedup(M[k]))`.  The order and exact
multiplicities within a key are left unspecified: they depend on how
`sort_unstable_by_key` permutes equal-keyed entry pairs, which the source
does not fix.  Every conjunct below is invariant under that permutation. -/
theorem claim_C1 (S : SnappyImpl) (input : List (String × List String))
    (hrt : ∀ s ∈ input.map Prod.fst ++ input.flatMap Prod.snd, RoundTrips S s)
    (hkeys : (input.map Prod.fst).Nodup)
    (k : String) (vs : List String) (hmem : (k, vs) ∈ input) (hvs : vs ≠ []) :
    ∃ seg, CachedSegment.new? S input = some seg ∧
      (∀ v, v ∈ CachedSegment.find S seg k ↔ v ∈ vs) ∧
      vs.dedup.length ≤ (CachedSegment.find S seg k).length ∧
      (CachedSegment.find S seg k).length ≤ vs.length := by
  obtain ⟨seg, hseg, hfind⟩ := cachedFind_destutter S input hrt hkeys k vs hmem hvs
  refine ⟨seg, hseg, ?_, ?_, ?_⟩
  · intro v
    rw [hfind]
    exact mem_destutter_ne vs v
  · rw [hfind]
    have hset : (vs.destutter (· ≠ ·)).toFinset = vs.toFinset := by
      ext x
      simp only [List.mem_toFinset]
      exact mem_destutter_ne vs x
    calc vs.dedup.length = vs.toFinset.card := vs.card_toFinset.symm
      _ = (vs.destutter (· ≠ ·)).toFinset.card := by rw [hset]
      _ ≤ (vs.destutter (· ≠ ·)).length := (vs.destutter (· ≠ ·)).toFinset_card_le
  · rw [hfind]
    exact (vs.destutter_sublist (· ≠ ·)).length_le

/-- C1 (witness): the amended theorem at `{"key" ↦ ["value", "value",
"value2"]}`. -/
theorem claim_C1_witness :
    ∃ seg, CachedSegment.new? rleSnappy [("key", ["value", "value", "value2"])] = some seg ∧
      (∀ v, v ∈ CachedSegment.find rleSnappy seg "key" ↔
        v ∈ (["value", "value", "value2"] : List String)) ∧
      (["value", "value", "value2"] : List String).dedup.length ≤
        (CachedSegment.find rleSnappy seg "key").length ∧
      (CachedSegment.find rleSnappy seg "key").length ≤
        (["value", "value", "value2"] : List String).length :=
  claim_C1 rleSnappy [("key", ["value", "value", "value2"])] (by decide) (by decide)
    "key" ["value", "value", "value2"] (by decide) (by decide)

/-- The 14-key mapping on which the on-disk binary search misses. -/
def c2Input : List (String × List String) :=
  [("a", ["x"]), ("b", ["x"]), ("c", ["x"]), ("d", ["x"]), ("e", ["x"]), ("f", ["x"]),
   ("g", ["x"]), ("h", ["x"]), ("i", ["x"]), ("j", ["x"]), ("k", ["x"]), ("l", ["x"]),
   ("m", ["x"]), ("n", ["x"])]

/-- C2 (code bug): with 14 keys, the cached segment finds `"a" ↦ ["x"]`
but the disk segment flushed from the very same cached segment returns
`Ok([])` for `"a"`: the staircase search in `map_to_index` runs out of
steps before reaching index 0, so the tiers disagree. -/
theorem claim_C2 :
    ∃ seg : CachedSegment,
      CachedSegment.new? rleSnappy c2Input = some seg ∧
      CachedSegment.find rleSnappy seg "a" = ["x"] ∧
      (flushMemorySegment seg).find rleSnappy "a" = .ok [] := by
  decide

/-- C3 (counterexample): a spilling insert (4097 distinct values, key
`"k" ↦ "!"`) followed by a small insert (`"k" ↦ "q"`) that stays in
memory.  `find("k", None)` returns `["q", "!"]`: the value written by the
*later* insert precedes the value written by the *earlier* one, because
the memory tier is always scanned before the disk tier. -/
theorem claim_C3_counterexample :
    ∃ stA stB : TieredSegmentMap,
      TieredSegmentMap.insert rleSnappy ⟨0, [], [], []⟩ bigInput = some stA ∧
      TieredSegmentMap.insert rleSnappy stA smallInput = some stB ∧
      TieredSegmentMap.find rleSnappy stB "k" none = .ok ["q", "!"] :=
  ⟨st1, st2, insert_big, insert_small, st2_find⟩

/-- C3 (amended): an unlimited `find` returns all memory-tier results
(segments front to back) followed by all disk-tier results — tier
placement, not insertion order, determines precedence. -/
theorem claim_C3 (S : SnappyImpl) (st : TieredSegmentMap) (key : String) :
    st.find S key none =
      (match findDiskGo S key st.disk none with
       | .error e => .error e
       | .ok dp =>
         .ok ((st.memory.map (fun sg => CachedSegment.find S sg key)).flatten ++ dp.1)) :=
  tieredFind_none_eq S st key

/-- C4 (code bug): a spilled segment's directory is named `"1-segment"`
(`format!("{}-segment", counter)`), but recovery accepts only names
starting with `"seg-"`; reconstructing over that directory fails with
`UnknownFile` instead of reproducing the data. -/
theorem claim_C4 :
    (TieredSegmentMap.writeSegment ⟨0, [], [], []⟩ segSmall).2.2 = "1-segment" ∧
    TieredSegmentMap.new [("1-segment", flushMemorySegment segSmall)] =
      .error .UnknownFile := by
  decide

/-- C5 (code bug): recovering a directory whose only child is `seg-0`
leaves `counter = 0`, which does not strictly exceed the suffix `0`
(`maximum_index` is only bumped when strictly smaller, so a lone `seg-0`
never raises it). -/
theorem claim_C5 :
    ∃ st : TieredSegmentMap,
      TieredSegmentMap.new [("seg-0", flushMemorySegment segSmall)] = .ok st ∧
      st.counter = 0 :=
  ⟨⟨0, [], [flushMemorySegment segSmall], [("seg-0", flushMemorySegment segSmall)]⟩,
   by decide, rfl⟩

/-- C6 (counterexample): constructing from an empty mapping does not
return an `EmptySegment` error — it panics (`ilog2` of `0`, modelled by
`none`); `insert` of an empty mapping likewise has no error to return. -/
theorem claim_C6_counterexample :
    CachedSegment.new? rleSnappy [] = none ∧
    TieredSegmentMap.insert rleSnappy ⟨0, [], [], []⟩ [] = none := by
  decide

/-- C6 (amended): for every compressor and every map state, constructing
from an empty mapping aborts by panic (modelled `none`) rather than
returning any error value; no `EmptySegment`/`EmptyInput` variant exists
in the source. -/
theorem claim_C6 (S : SnappyImpl) (st : TieredSegmentMap) :
    CachedSegment.new? S [] = none ∧ TieredSegmentMap.insert S st [] = none := by
  refine ⟨rfl, ?_⟩
  unfold TieredSegmentMap.insert
  rw [show CachedSegment.new? S [] = none from rfl]

/-- C7 (counterexample): `{"k" ↦ ["v1", "v2", "v1"]}` yields the entry
table `[(0,0), (0,1), (0,0)]`: the pair `(0,0)` occurs twice (only
*adjacent* duplicates are removed) and value indices within the key are
not ascending. -/
theorem claim_C7_counterexample :
    (CachedSegment.new? rleSnappy [("k", ["v1", "v2", "v1"])]).map
      (fun seg => seg.entries) = some [(0, 0), (0, 1), (0, 0)] := by
  decide

/-- C7 (amended): the entry table is sorted ascending by key index, has no
*adjacent* duplicate pairs, and every pair's indices are in range of the
key and value tables. -/
theorem claim_C7 (S : SnappyImpl) (input : List (String × List String))
    (hrt : ∀ s ∈ input.map Prod.fst ++ input.flatMap Prod.snd, RoundTrips S s)
    (hkeys : (input.map Prod.fst).Nodup) (hne : input ≠ []) :
    ∃ seg, CachedSegment.new? S input = some seg ∧
      seg.entries.Sorted entryKeyLe ∧
      seg.entries.Chain' (· ≠ ·) ∧
      ∀ p ∈ seg.entries, p.1 < seg.keys.length ∧ p.2 < seg.values.length :=
  entries_invariants S input hrt hkeys hne

/-- C7 (witness): the amended invariants at `{"a" ↦ ["1"], "b" ↦ ["2"]}`. -/
theorem claim_C7_witness :
    ∃ seg, CachedSegment.new? rleSnappy [("a", ["1"]), ("b", ["2"])] = some seg ∧
      seg.entries.Sorted entryKeyLe ∧
      seg.entries.Chain' (· ≠ ·) ∧
      ∀ p ∈ seg.entries, p.1 < seg.keys.length ∧ p.2 < seg.values.length :=
  claim_C7 rleSnappy [("a", ["1"]), ("b", ["2"])] (by decide) (by decide) (by decide)

/-- C8 (confirmed): `find` with `Some 0` returns `Ok([])` immediately;
with `Some L` it returns exactly the first `L` elements of the unlimited
result, i.e. `min(L, total_available)` values. -/
theorem claim_C8 (S : SnappyImpl) (st : TieredSegmentMap) (key : String) :
    st.find S key (some 0) = .ok [] ∧
    ∀ (L : Nat) (total : List String), st.find S key none = .ok total →
      st.find S key (some L) = .ok (total.take L) ∧
      (total.take L).length = min L total.length := by
  constructor
  · unfold TieredSegmentMap.find
    rw [if_pos rfl]
  · intro L total hok
    refine ⟨tieredFind_take S st key L total hok, ?_⟩
    rw [List.length_take]

/-- C8 (witness): the confirmed statement at a one-segment map. -/
theorem claim_C8_witness :
    TieredSegmentMap.find rleSnappy ⟨0, [segSmall], [], []⟩ "k" (some 0) = .ok [] ∧
    TieredSegmentMap.find rleSnappy ⟨0, [segSmall], [], []⟩ "k" (some 1) =
      .ok ((["q"] : List String).take 1) ∧
    ((["q"] : List String).take 1).length = min 1 (["q"] : List String).length :=
  ⟨(claim_C8 rleSnappy ⟨0, [segSmall], [], []⟩ "k").1,
   ((claim_C8 rleSnappy ⟨0, [segSmall], [], []⟩ "k").2 1 ["q"] (by decide)).1,
   ((claim_C8 rleSnappy ⟨0, [segSmall], [], []⟩ "k").2 1 ["q"] (by decide)).2⟩

/-- The one-key segment used by the C9 counterexample. -/
def segAB : CachedSegment :=
  { keys := [.Uncompressed "k"], values := [.Uncompressed "a", .Uncompressed "b"],
    entries := [(0, 0), (0, 1)], bloomKeys := ["k"] }

/-- C9 (counterexample): two partitions holding the same two-value segment,
searched with limit 2, return 4 values: the `break` that fires when the
budget reaches zero leaves the *old* limit in place for the next
partition. -/
theorem claim_C9_counterexample :
    CachedSegment.new? rleSnappy [("k", ["a", "b"])] = some segAB ∧
    PartitionMap.search rleSnappy id (fun _ => [("seg-0", flushMemorySegment segAB)])
      [("p1", ["k"]), ("p2", ["k"])] (some 2) = .ok ["a", "b", "a", "b"] ∧
    ¬ (["a", "b", "a", "b"] : List String).length ≤ 2 := by
  decide

/-- C9 (amended): the shared limit bounds each partition's contribution,
so a search over `n` partitions with limit `L` returns at most `L · n`
values (at most `L` for a single partition) — not at most `L` overall. -/
theorem claim_C9 (S : SnappyImpl) (enc : String → String)
    (root : String → List (String × DiskFiles))
    (query : List (String × List String)) (L : Nat) (res : List String)
    (hok : PartitionMap.search S enc root query (some L) = .ok res) :
    res.length ≤ L * query.length := by
  have hb := searchPartGo_bound S enc root L query [] res L (le_refl L) hok
  simpa [Nat.mul_comm] using hb

/-- C9 (witness): the amended bound at one partition, one key, limit 1. -/
theorem claim_C9_witness :
    (([] : List String)).length ≤ 1 * ([("p", ["k"])] : List (String × List String)).length :=
  claim_C9 rleSnappy id (fun _ => []) [("p", ["k"])] 1 [] (by decide)

/-- C10 (confirmed): whenever the compression library round-trips on `s`,
decoding `Entry::new(s)` by `as_uncompressed` or `into_uncompressed`
yields `s`, on whichever branch `new` chose. -/
theorem claim_C10 (S : SnappyImpl) (s : String) (h : RoundTrips S s) :
    (Entry.new S s).asUncompressed? S = some s ∧
    (Entry.new S s).intoUncompressed? S = some s := by
  unfold RoundTrips at h
  have hmain : (Entry.new S s).asUncompressed? S = some s := by
    unfold Entry.new Entry.asUncompressed?
    by_cases hc : (S.compress s).length < strLen s <;> simp [hc, h]
  exact ⟨hmain, hmain⟩

/-- C10 (witness): both branches concretely — `"aaaaaaaaaa"` compresses
(RLE `[10, 97]`), `"k"` stays raw. -/
theorem claim_C10_witness :
    (Entry.new rleSnappy "aaaaaaaaaa").asUncompressed? rleSnappy = some "aaaaaaaaaa" ∧
    (Entry.new rleSnappy "k").intoUncompressed? rleSnappy = some "k" :=
  ⟨(claim_C10 rleSnappy "aaaaaaaaaa" (by decide)).1,
   (claim_C10 rleSnappy "k" (by decide)).2⟩
